import Mathlib

/-!
Verification of getautocue's core against its specification.

Shallow embedding of the repository's fuzzy string matching library
(src/lib/fuzzy_matching.ts), its Fuse-based text matcher
(FuseTextMatcher) and the voice-mode incremental tracker hook.

Modelling conventions:
- JS strings are `List Char` (a JS string is a sequence of code units).
- JS numbers are modelled exactly: the similarity scorers only ever
  produce integers (Math.round results), so they return `Nat`;
  fractional values (WRatio's 0.95/0.9 scaling, Fuse match scores in
  [0,1]) are exact rationals `ℚ`.
- `Array.prototype.sort` (stable since ES2019) is modelled as the stable
  `List.insertionSort`.
- `new Set(xs)` (iteration in first-insertion order) is `firstDedup`.
- Fuse.js is an external dependency, not part of the repository: calls
  into it are abstracted as function parameters constrained only by the
  facts the code relies on (a search result's item is drawn from the
  searched collection).
-/

namespace GAC

/-- Whitespace test used to model the regexes `\s` and `String.trim`. -/
def wsB (c : Char) : Bool := c.isWhitespace

/-- Model of `String.prototype.trim`: drop whitespace from both ends. -/
def jsTrim (l : List Char) : List Char :=
  ((l.dropWhile wsB).reverse.dropWhile wsB).reverse

/-- Model of `str.replace(/\s+/g, ' ')` via an emitted-a-space flag:
runs of whitespace collapse to a single space. -/
def collapseAux : Bool → List Char → List Char
  | _, [] => []
  | prevWs, c :: rest =>
    if wsB c then
      if prevWs then collapseAux true rest else ' ' :: collapseAux true rest
    else c :: collapseAux false rest

/-- Collapse whitespace runs to single spaces (`replace(/\s+/g, ' ')`). -/
def collapseWs (l : List Char) : List Char := collapseAux false l

/-- Model of `String.prototype.toLowerCase` (charwise). -/
def toLowerStr (l : List Char) : List Char := l.map Char.toLower

/-- Model of `str.replace(/[^\x00-\x7F]/g, "")`. -/
def stripNonAscii (l : List Char) : List Char := l.filter (fun c => c.toNat ≤ 127)

/-- Model of `str.replace(/[^a-z0-9\s]/g, ' ')` (applied after lowercasing). -/
def replaceBad (l : List Char) : List Char :=
  l.map (fun c =>
    if ('a' ≤ c ∧ c ≤ 'z') ∨ ('0' ≤ c ∧ c ≤ '9') ∨ wsB c then c else ' ')

/-- The library's `full_process`: optional ASCII folding, lowercase,
replace non-alphanumerics by spaces, trim, collapse whitespace, trim. -/
def full_process (force_ascii : Bool) (s : List Char) : List Char :=
  jsTrim (collapseWs (jsTrim (replaceBad (toLowerStr
    (if force_ascii then stripNonAscii s else s)))))

/-- Prepend a character to the first piece of a split result. -/
def consHead (c : Char) : List (List Char) → List (List Char)
  | [] => [[c]]
  | t :: ts => (c :: t) :: ts

/-- Model of `String.prototype.split(sep)` for a single character
separator, as JS defines it (`"".split(' ') = [""]`, empty pieces kept). -/
def splitCh (sep : Char) : List Char → List (List Char)
  | [] => [[]]
  | c :: rest =>
    if c = sep then [] :: splitCh sep rest else consHead c (splitCh sep rest)

/-- Split on single spaces, as `s.split(' ')` does. -/
def splitSp (l : List Char) : List (List Char) := splitCh ' ' l

/-- Split into maximal runs delimited by whitespace characters (used only
to express the spec's phrase "whitespace-delimited token"). -/
def splitWs : List Char → List (List Char)
  | [] => [[]]
  | c :: rest =>
    if wsB c then [] :: splitWs rest else consHead c (splitWs rest)

/-- Model of `Array.prototype.join(' ')`. -/
def joinSp : List (List Char) → List Char
  | [] => []
  | [t] => t
  | t :: ts => t ++ ' ' :: joinSp ts

/-- JS code-unit comparison of strings, `a < b || a == b` (default
`Array.prototype.sort` order for strings). -/
def strLeb : List Char → List Char → Bool
  | [], _ => true
  | _ :: _, [] => false
  | a :: as_, b :: bs =>
    if a.toNat < b.toNat then true
    else if b.toNat < a.toNat then false
    else strLeb as_ bs

/-- Model of `new Set(xs)` followed by `[...set]`: keep the first
occurrence of each element, in order. -/
def firstDedup : List (List Char) → List (List Char)
  | [] => []
  | x :: xs => x :: (firstDedup xs).filter (fun y => y ≠ x)

/-- Cost of aligning two characters (`s1[i] === s2[j] ? 0 : 1`). -/
def costc (a b : Char) : Nat := if a = b then 0 else 1

/-- One cell chain of the rolling-row update: given the remaining target
characters, the tail of the previous row `v0`, the previous row's entry
above-left (`diag`) and the entry just computed to the left (`left`),
produce the remaining entries of the new row, mirroring the inner loop
`v1[j+1] = min(v1[j]+1, v0[j+1]+1, v0[j]+cost)`. -/
def levNextRow (c : Char) : List Char → List Nat → Nat → Nat → List Nat
  | [], _, _, _ => []
  | _ :: _, [], _, _ => []
  | y :: ys, v0j1 :: v0rest, diag, left =>
    let e := min (left + 1) (min (v0j1 + 1) (diag + costc c y))
    e :: levNextRow c ys v0rest v0j1 e

/-- One outer-loop iteration: build the full new row from the previous
row `v0`, with `i1` the new row's first entry (`v1[0] = i + 1`). -/
def levStep (c : Char) (ys : List Char) (v0 : List Nat) (i1 : Nat) : List Nat :=
  i1 :: levNextRow c ys v0.tail (v0.headD 0) i1

/-- The source's outer loop over the characters of `s1`, threading the
current row (`v0`) and the row index. -/
def levLoop : List Char → List Char → List Nat → Nat → List Nat
  | [], _, v0, _ => v0
  | x :: xs, ys, v0, i => levLoop xs ys (levStep x ys v0 (i + 1)) (i + 1)

/-- The library's `levenshtein`: short-circuit on equal strings, handle
empty strings, then run the two-rolling-rows dynamic program and read
off `v1[len2]`. -/
def levenshtein (s1 s2 : List Char) : Nat :=
  if s1 = s2 then 0
  else if s1.length = 0 then s2.length
  else if s2.length = 0 then s1.length
  else (levLoop s1 s2 (List.range (s2.length + 1)) 0).getD s2.length 0

/-- The textbook Levenshtein distance with unit costs, by recursion on
both strings; the mathematical specification the DP is checked against. -/
def levSpec : List Char → List Char → Nat
  | [], ys => ys.length
  | x :: xs, [] => (x :: xs).length
  | x :: xs, y :: ys =>
    min (levSpec xs (y :: ys) + 1)
      (min (levSpec (x :: xs) ys + 1) (levSpec xs ys + costc x y))
termination_by xs ys => xs.length + ys.length

/-- Integer form of `Math.round(a / b)` for naturals (`b > 0` at every
use): round-half-up computed as `⌊(2a + b) / (2b)⌋` in `Nat` division. -/
def roundDiv (a b : Nat) : Nat := (2 * a + b) / (2 * b)

/-- The rounding the spec describes, `Math.round` over exact rationals:
`⌊q + 1/2⌋` (JS rounds halves up). Used in claim statements. -/
def jsRoundQ (q : ℚ) : ℤ := ⌊q + 1 / 2⌋

/-- The library's `ratio`: 100 for two empty strings, 0 when exactly one
is empty, else `round(((len1+len2-dist)/(len1+len2))*100)`. The value is
always a whole number, so it is computed in `Nat`. -/
def ratio (s1 s2 : List Char) : Nat :=
  if s1.length = 0 ∧ s2.length = 0 then 100
  else if s1.length = 0 ∨ s2.length = 0 then 0
  else roundDiv ((s1.length + s2.length - levenshtein s1 s2) * 100)
    (s1.length + s2.length)

/-- The library's `partial_ratio`: slide the shorter string over the
longer one, score every window with `ratio`, keep the best. -/
def partial_ratio (s1 s2 : List Char) : Nat :=
  if s1.length = 0 ∨ s2.length = 0 then 0
  else
    let sh := if s1.length < s2.length then s1 else s2
    let lo := if s1.length < s2.length then s2 else s1
    ((List.range (lo.length - sh.length + 1)).map
      (fun i => ratio sh ((lo.drop i).take sh.length))).foldl max 0

/-- The library's `_sort_tokens`: split on spaces, drop empty tokens,
sort lexicographically (JS default sort), rejoin with single spaces. -/
def sort_tokens (s : List Char) : List Char :=
  if s = [] then []
  else joinSp (List.insertionSort (fun a b => strLeb a b = true)
    ((splitSp s).filter (fun t => t ≠ [])))

/-- Conditional normalization: the `full_process` option every scorer
takes (`p = do_process ? full_process(s, {force_ascii}) : s`). -/
def procIf (force_ascii do_process : Bool) (s : List Char) : List Char :=
  if do_process then full_process force_ascii s else s

/-- The library's `token_sort_ratio`. -/
def token_sort_ratio (force_ascii do_process : Bool) (s1 s2 : List Char) : Nat :=
  ratio (sort_tokens (procIf force_ascii do_process s1))
    (sort_tokens (procIf force_ascii do_process s2))

/-- Token list of a processed string: `p.split(' ').filter(t => t)`. -/
def jsTokens (p : List Char) : List (List Char) := (splitSp p).filter (fun t => t ≠ [])

/-- Sort a token set and join it, as `[...set].sort().join(' ').trim()`. -/
def sortedJoin (ts : List (List Char)) : List Char :=
  jsTrim (joinSp (List.insertionSort (fun a b => strLeb a b = true) ts))

/-- The library's `token_set_ratio` on already-processed strings. The
second difference is transcribed exactly as the source computes it:
`diff2_1 = [...tokens2].filter(x => !tokens2.has(x))` — the filter runs
against `tokens2` itself. -/
def token_set_core (p1 p2 : List Char) : Nat :=
  let tokens1 := firstDedup (jsTokens p1)
  let tokens2 := firstDedup (jsTokens p2)
  if tokens1 = [] ∧ tokens2 = [] then 100
  else if tokens1 = [] ∨ tokens2 = [] then 0
  else
    let sect := firstDedup (tokens1.filter (fun x => x ∈ tokens2))
    let diff1_2 := firstDedup (tokens1.filter (fun x => x ∉ tokens2))
    let diff2_1 := firstDedup (tokens2.filter (fun x => x ∉ tokens2))
    let sorted_sect := sortedJoin sect
    let sorted_diff1 := sortedJoin diff1_2
    let sorted_diff2 := sortedJoin diff2_1
    let combined1 := jsTrim (sorted_sect ++ ' ' :: sorted_diff1)
    let combined2 := jsTrim (sorted_sect ++ ' ' :: sorted_diff2)
    if sorted_sect = [] then 0
    else max (ratio sorted_sect combined1)
      (max (ratio sorted_sect combined2) (ratio combined1 combined2))

/-- The library's `token_set_ratio` with its processing options. -/
def token_set_ratio (force_ascii do_process : Bool) (s1 s2 : List Char) : Nat :=
  token_set_core (procIf force_ascii do_process s1) (procIf force_ascii do_process s2)

/-- The library's `partial_token_sort_ratio`: sort tokens, then
`partial_ratio`. -/
def partial_token_sort_ratio (force_ascii do_process : Bool) (s1 s2 : List Char) : Nat :=
  partial_ratio (sort_tokens (procIf force_ascii do_process s1))
    (sort_tokens (procIf force_ascii do_process s2))

/-- The source line `partial_token_set_ratio: _fuzz.token_set_ratio` — a
direct alias, transcribed as one. -/
def partial_token_set_ratio : Bool → Bool → List Char → List Char → Nat :=
  token_set_ratio

/-- Largest element of a list of rationals, as `Math.max(...scores)`
folds over a non-empty argument list (the first score seeds the fold). -/
def maxQ (q : ℚ) (l : List ℚ) : ℚ := l.foldl max q

/-- The library's `WRatio` on processed inputs: base `ratio`, the two
token scores scaled by 0.95, and — when the length ratio exceeds 1.5 —
the three partial scores additionally scaled by 0.9; rounded maximum. -/
def WRatioCore (p1 p2 : List Char) : ℤ :=
  if p1.length = 0 ∨ p2.length = 0 then 0
  else
    let len_ratio : ℚ :=
      if p2.length < p1.length then (p1.length : ℚ) / p2.length
      else (p2.length : ℚ) / p1.length
    let base : ℚ := ratio p1 p2
    let partial_scale : ℚ := if 3 / 2 < len_ratio then 9 / 10 else 1
    let scores : List ℚ :=
      [(token_sort_ratio true false p1 p2 : ℚ) * (95 / 100),
       (token_set_ratio true false p1 p2 : ℚ) * (95 / 100)] ++
      (if 3 / 2 < len_ratio then
        [(partial_ratio p1 p2 : ℚ) * partial_scale,
         (partial_token_sort_ratio true false p1 p2 : ℚ) * (95 / 100) * partial_scale,
         (partial_token_set_ratio true false p1 p2 : ℚ) * (95 / 100) * partial_scale]
      else [])
    jsRoundQ (maxQ base scores)

/-- The library's `WRatio` with its processing options. -/
def WRatio (force_ascii do_process : Bool) (s1 s2 : List Char) : ℤ :=
  WRatioCore (procIf force_ascii do_process s1) (procIf force_ascii do_process s2)

/-- Modelled from the spec: `token_set_ratio` as §4.1 describes it, with
the second set difference computed against the first token set
(`tokens2 \ tokens1`), the variant the source's `diff2_1` name intends.
Used to exhibit the divergence between the source and the spec. -/
def token_set_spec (p1 p2 : List Char) : Nat :=
  let tokens1 := firstDedup (jsTokens p1)
  let tokens2 := firstDedup (jsTokens p2)
  if tokens1 = [] ∧ tokens2 = [] then 100
  else if tokens1 = [] ∨ tokens2 = [] then 0
  else
    let sect := firstDedup (tokens1.filter (fun x => x ∈ tokens2))
    let diff1_2 := firstDedup (tokens1.filter (fun x => x ∉ tokens2))
    let diff2_1 := firstDedup (tokens2.filter (fun x => x ∉ tokens1))
    let sorted_sect := sortedJoin sect
    let sorted_diff1 := sortedJoin diff1_2
    let sorted_diff2 := sortedJoin diff2_1
    let combined1 := jsTrim (sorted_sect ++ ' ' :: sorted_diff1)
    let combined2 := jsTrim (sorted_sect ++ ' ' :: sorted_diff2)
    if sorted_sect = [] then 0
    else max (ratio sorted_sect combined1)
      (max (ratio sorted_sect combined2) (ratio combined1 combined2))

/-- Modelled from the spec: a `partial_token_set_ratio` "computed by
sliding-window partial matching" (§4.1's token-set construction, with
both set differences as the spec gives them, compared by the
sliding-window `partial_ratio` instead of `ratio`). -/
def partial_token_set_spec (p1 p2 : List Char) : Nat :=
  let tokens1 := firstDedup (jsTokens p1)
  let tokens2 := firstDedup (jsTokens p2)
  if tokens1 = [] ∧ tokens2 = [] then 100
  else if tokens1 = [] ∨ tokens2 = [] then 0
  else
    let sect := firstDedup (tokens1.filter (fun x => x ∈ tokens2))
    let diff1_2 := firstDedup (tokens1.filter (fun x => x ∉ tokens2))
    let diff2_1 := firstDedup (tokens2.filter (fun x => x ∉ tokens1))
    let sorted_sect := sortedJoin sect
    let sorted_diff1 := sortedJoin diff1_2
    let sorted_diff2 := sortedJoin diff2_1
    let combined1 := jsTrim (sorted_sect ++ ' ' :: sorted_diff1)
    let combined2 := jsTrim (sorted_sect ++ ' ' :: sorted_diff2)
    if sorted_sect = [] then 0
    else max (partial_ratio sorted_sect combined1)
      (max (partial_ratio sorted_sect combined2) (partial_ratio combined1 combined2))

/-- Well-behaved-whitespace predicate on a processed string: any
whitespace character it holds is a plain space. `full_process` output
satisfies it; it is what "normalized" amounts to for the token scorers. -/
def onlySpaceWs (p : List Char) : Prop := ∀ c ∈ p, c.isWhitespace → c = ' '

/-- Descending-by-score order used to model the stable
`results.sort((a, b) => b[1] - a[1])` of `extractBests`. -/
def scoreDesc (a b : List Char × Nat) : Prop := b.2 ≤ a.2

instance : DecidableRel scoreDesc := fun a b => Nat.decLe b.2 a.2

/-- The retention loop of `extractBests`: skip null/undefined entries,
score every remaining candidate against the processed query, keep the
pairs reaching the cutoff, in input order. -/
def keptPairs (scorer : List Char → List Char → Nat)
    (processor : List Char → List Char) (query : List Char)
    (choices : List (Option (List Char))) (cutoff : Nat) :
    List (List Char × Nat) :=
  let processed_query := processor query
  choices.filterMap (fun c? =>
    match c? with
    | none => none
    | some choice =>
      let score := scorer processed_query (processor choice)
      if cutoff ≤ score then some (choice, score) else none)

/-- The library's `extractBests`: keep scorers' hits at or above the
cutoff, stable-sort them by descending score, truncate to `limit`
(`limit = null`, modelled `none`, keeps everything). -/
def extractBests (scorer : List Char → List Char → Nat)
    (processor : List Char → List Char) (query : List Char)
    (choices : List (Option (List Char))) (limit : Option Nat)
    (cutoff : Nat) : List (List Char × Nat) :=
  let sorted := List.insertionSort scoreDesc (keptPairs scorer processor query choices cutoff)
  match limit with
  | none => sorted
  | some n => sorted.take n

/-- Canonical-pick order of `dedupe`'s `matches.sort`: longer strings
first, ties by code-unit order (`localeCompare` on ASCII data). -/
def canonDesc (a b : List Char × Nat) : Prop :=
  b.1.length < a.1.length ∨ (a.1.length = b.1.length ∧ strLeb a.1 b.1 = true)

instance : DecidableRel canonDesc := fun a b =>
  inferInstanceAs (Decidable (b.1.length < a.1.length ∨
    (a.1.length = b.1.length ∧ strLeb a.1 b.1 = true)))

/-- One iteration of `dedupe`'s clustering loop, threading the
`processed` set (first component) and the insertion-ordered cluster
keys (second component). -/
def dedupeStep (scorer : List Char → List Char → Nat) (threshold : Nat)
    (contains_dupes : List (List Char))
    (acc : List (List Char) × List (List Char)) (item : List Char) :
    List (List Char) × List (List Char) :=
  if item ∈ acc.1 then acc
  else
    let matchList := extractBests scorer (full_process false) item
      (contains_dupes.map some) none threshold
    if matchList = [] then acc
    else
      let sortedM := List.insertionSort canonDesc matchList
      let canonical := (sortedM.headD ([], 0)).1
      (acc.1 ++ sortedM.map (fun m => m.1),
       if canonical ∈ acc.2 then acc.2 else acc.2 ++ [canonical])

/-- The library's `dedupe`: greedy clustering over the full input list;
each unprocessed item pulls in every candidate scoring at or above the
threshold, the longest match (ties lexicographic) becomes the cluster
key, and the original list is returned unchanged when every item ended
up its own cluster. -/
def dedupe (scorer : List Char → List Char → Nat) (threshold : Nat)
    (contains_dupes : List (List Char)) : List (List Char) :=
  if contains_dupes = [] then []
  else
    let keys := (contains_dupes.foldl
      (dedupeStep scorer threshold contains_dupes) ([], [])).2
    if keys.length = contains_dupes.length then contains_dupes else keys

/-- Model of `Array.prototype.slice(start, end)` (negative indices count
from the end, out-of-range indices clamp). -/
def jsSlice {α : Type} (l : List α) (s e : ℤ) : List α :=
  let n : ℤ := l.length
  let s1 := if s < 0 then max (n + s) 0 else min s n
  let e1 := if e < 0 then max (n + e) 0 else min e n
  (l.drop s1.toNat).take (e1.toNat - s1.toNat)

/-- Result record of `FuseTextMatcher.findBestMatch`. -/
structure FuseMatchResult where
  index : ℤ
  score : ℚ
  spokenWordIndices : List ℤ
  nextWordIndex : ℤ
  matchedText : List Char
deriving DecidableEq

/-- The precomputed tables of a `FuseTextMatcher` instance. -/
structure Matcher where
  words : List (List Char)
  sentences : List (List Char)
  sentenceWordOffsets : List Nat

/-- Whitespace-run tokens with the source's `filter(w => w.trim())`. -/
def wsSplitTokens (l : List Char) : List (List Char) :=
  (splitWs l).filter (fun w => jsTrim w ≠ [])

/-- One turn of the candidate loop of `findBestMatch`: run word-level
matching on a sentence hit and keep the best-scoring word match seen so
far together with its score. The Fuse-backed search is a parameter:
`wordMatch` stands for
`findWordLevelMatch(sentence, transcript, offset, currentPosition)`
(`sentSearch` below yields the `refIndex` list of
`fuse.search(transcript)`). -/
def candStep (wordMatch : List Char → List Char → Nat → ℤ → Option FuseMatchResult)
    (m : Matcher) (transcript : List Char) (currentPosition : ℤ)
    (acc : Option FuseMatchResult × ℚ) (sentenceIndex : Nat) :
    Option FuseMatchResult × ℚ :=
  let sentenceWordOffset := m.sentenceWordOffsets.getD sentenceIndex 0
  let sentence := m.sentences.getD sentenceIndex []
  match wordMatch sentence transcript sentenceWordOffset currentPosition with
  | none => acc
  | some wm => if acc.2 < wm.score then (some wm, wm.score) else acc

/-- The candidate loop: fold `candStep` over the top three sentence hits,
starting from `(undefined, 0)`. -/
def bestOfCandidates (sentSearch : List Char → List Nat)
    (wordMatch : List Char → List Char → Nat → ℤ → Option FuseMatchResult)
    (m : Matcher) (transcript : List Char) (currentPosition : ℤ) :
    Option FuseMatchResult × ℚ :=
  ((sentSearch transcript).take 3).foldl
    (candStep wordMatch m transcript currentPosition) (none, 0)

/-- `FuseTextMatcher.findBestMatch`: degenerate-input exits, the
candidate loop, then the jump guard — a best match farther than 20
words from a known prior position is rejected unless its score reaches
0.8. -/
def findBestMatch (sentSearch : List Char → List Nat)
    (wordMatch : List Char → List Char → Nat → ℤ → Option FuseMatchResult)
    (m : Matcher) (transcript : List Char) (currentPosition : ℤ) :
    Option FuseMatchResult :=
  if jsTrim transcript = [] ∨ m.words = [] then none
  else if wsSplitTokens (toLowerStr transcript) = [] then none
  else if sentSearch transcript = [] then none
  else
    let best := bestOfCandidates sentSearch wordMatch m transcript currentPosition
    match best.1 with
    | none => none
    | some bm =>
      if currentPosition ≠ -1 ∧ 20 < (bm.index - currentPosition).natAbs ∧
          best.2 < mkRat 4 5 then none
      else some bm

/-- Per-word tracking state of the voice-mode hook. -/
structure ScriptWord where
  id : Nat
  word : List Char
  rawWord : List Char
  isSpoken : Bool
  isCurrent : Bool
deriving DecidableEq

/-- The tracker state the transcript handlers read and write: the script
word list and the monotone progress pointer (-1 before any match). -/
structure TrackerState where
  scriptWords : List ScriptWord
  lastMatchedWordIndex : ℤ
deriving DecidableEq

/-- The hook's `SEARCH_WINDOW_SIZE` constant. -/
def SEARCH_WINDOW_SIZE : ℤ := 8

/-- The cumulative marking pass of the final-transcript handler: every
word up to and including the matched index becomes spoken and loses the
current highlight. -/
def markSpokenUpTo (idx : Nat) (ws : List ScriptWord) : List ScriptWord :=
  ws.mapIdx (fun i w =>
    if i ≤ idx then { w with isSpoken := true, isCurrent := false } else w)

/-- One turn of the final-transcript loop: search the window just past
the running local match index for the token; a hit advances the local
index to the matched word's id and queues it for the spoken-marking
pass. `search` stands for the Fuse search over the window
(`results[0]?.item`). -/
def finStep (search : List ScriptWord → List Char → Option ScriptWord)
    (st : TrackerState) (acc : ℤ × List Nat) (w : List Char) : ℤ × List Nat :=
  let searchStart := acc.1 + 1
  let searchSlice := jsSlice st.scriptWords searchStart
    (searchStart + SEARCH_WINDOW_SIZE)
  if searchSlice = [] then acc
  else
    match search searchSlice w with
    | none => acc
    | some bm => ((bm.id : ℤ), acc.2 ++ [bm.id])

/-- `handleFinalTranscript`: lowercase and space-split the committed
text, fold `finStep` over the tokens, then apply every queued
cumulative spoken-marking pass and store the final local index. -/
def handleFinalTranscript
    (search : List ScriptWord → List Char → Option ScriptWord)
    (text : List Char) (st : TrackerState) : TrackerState :=
  if text = [] then st
  else
    let transcribedWords := (splitSp (toLowerStr text)).filter (fun w => w ≠ [])
    let result := transcribedWords.foldl (finStep search st)
      (st.lastMatchedWordIndex, [])
    { scriptWords := result.2.foldl (fun ws idx => markSpokenUpTo idx ws) st.scriptWords,
      lastMatchedWordIndex := result.1 }

/-- A whole stream of final transcript events, in arrival order. -/
def processFinals (search : List ScriptWord → List Char → Option ScriptWord)
    (texts : List (List Char)) (st : TrackerState) : TrackerState :=
  texts.foldl (fun s t => handleFinalTranscript search t s) st

/-- The last space-delimited token the partial handler extracts:
`text.toLowerCase().split(' ')` and take the final piece. -/
def lastSpaceTok (text : List Char) : List Char :=
  (splitSp (toLowerStr text)).getLastD []

/-- Modelled from the spec: the "last whitespace-delimited token of the
partial text" named by §4.4 (split on any whitespace, final nonempty
piece); the code itself splits on single spaces only. -/
def lastWsTok (text : List Char) : List Char :=
  ((splitWs (toLowerStr text)).filter (fun w => w ≠ [])).getLastD []

/-- `handlePartialTranscript`: align only the last space-delimited token
of the unstable partial text against the fixed window just past
`lastMatchedWordIndex`; a hit moves the single `isCurrent` highlight and
nothing else. -/
def handlePartialTranscript
    (search : List ScriptWord → List Char → Option ScriptWord)
    (text : List Char) (st : TrackerState) : TrackerState :=
  if text = [] then st
  else
    let lastPartialWord := lastSpaceTok text
    if lastPartialWord = [] then st
    else
      let searchStart := st.lastMatchedWordIndex + 1
      let searchSlice := jsSlice st.scriptWords searchStart
        (searchStart + SEARCH_WINDOW_SIZE)
      if searchSlice = [] then st
      else
        match search searchSlice lastPartialWord with
        | none => st
        | some bm =>
          { st with scriptWords :=
              st.scriptWords.map (fun w => { w with isCurrent := w.id == bm.id }) }

/-- `resetVoiceMode`'s effect on the tracked state: clear every flag and
return the pointer to the -1 sentinel. -/
def resetVoiceMode (st : TrackerState) : TrackerState :=
  { scriptWords := st.scriptWords.map
      (fun w => { w with isSpoken := false, isCurrent := false }),
    lastMatchedWordIndex := -1 }

/-- Well-formedness the preprocessing effect establishes: each script
word's `id` equals its position in the list. -/
def TrackerWF (st : TrackerState) : Prop :=
  st.scriptWords.map (fun w => w.id) = List.range st.scriptWords.length

instance (st : TrackerState) : Decidable (TrackerWF st) := by
  unfold TrackerWF
  infer_instance

instance (p : List Char) : Decidable (onlySpaceWs p) := by
  unfold onlySpaceWs
  infer_instance

instance : IsTotal (List Char × Nat) scoreDesc :=
  ⟨fun a b => le_total b.2 a.2⟩

instance : IsTrans (List Char × Nat) scoreDesc :=
  ⟨fun _ _ _ hab hbc => le_trans hbc hab⟩

/-! The theorems. First the dynamic-programming correctness of the
rolling-row `levenshtein` against the textbook recurrence `levSpec`. -/

theorem levSpec_nil_left (ys : List Char) : levSpec [] ys = ys.length := by
  cases ys <;> simp [levSpec]

theorem levSpec_nil_right (xs : List Char) : levSpec xs [] = xs.length := by
  cases xs <;> simp [levSpec]

theorem levSpec_cons_cons (x y : Char) (xs ys : List Char) :
    levSpec (x :: xs) (y :: ys) =
      min (levSpec xs (y :: ys) + 1)
        (min (levSpec (x :: xs) ys + 1) (levSpec xs ys + costc x y)) := by
  simp [levSpec]

theorem levSpec_self (s : List Char) : levSpec s s = 0 := by
  induction s with
  | nil => simp [levSpec]
  | cons c cs ih =>
    rw [levSpec_cons_cons, ih]
    simp [costc]

theorem levSpec_le_sum (xs ys : List Char) : levSpec xs ys ≤ xs.length + ys.length := by
  induction xs generalizing ys with
  | nil => simp [levSpec_nil_left]
  | cons x xs ih =>
    cases ys with
    | nil => simp [levSpec_nil_right]
    | cons y ys =>
      rw [levSpec_cons_cons]
      have h1 := ih (y :: ys)
      have h3 := ih ys
      simp only [List.length_cons] at h1 h3 ⊢
      omega

theorem min_transpose_le (b11 b12 b13 b21 b22 b23 b31 b32 b33 u1 u2 u3 v1 v2 v3 : ℕ) :
    min (min (b11 + u1) (min (b12 + u2) (b13 + u3)) + v1)
      (min (min (b21 + u1) (min (b22 + u2) (b23 + u3)) + v2)
        (min (b31 + u1) (min (b32 + u2) (b33 + u3)) + v3)) ≤
    min (min (b11 + v1) (min (b21 + v2) (b31 + v3)) + u1)
      (min (min (b12 + v1) (min (b22 + v2) (b32 + v3)) + u2)
        (min (b13 + v1) (min (b23 + v2) (b33 + v3)) + u3)) := by
  refine le_min ?_ (le_min ?_ ?_)
  · conv_rhs => rw [← min_add_add_right, ← min_add_add_right]
    refine le_min ?_ (le_min ?_ ?_)
    · exact (min_le_left _ _).trans
        ((add_le_add_right (min_le_left _ _) _).trans (by omega))
    · exact ((min_le_right _ _).trans (min_le_left _ _)).trans
        ((add_le_add_right (min_le_left _ _) _).trans (by omega))
    · exact ((min_le_right _ _).trans (min_le_right _ _)).trans
        ((add_le_add_right (min_le_left _ _) _).trans (by omega))
  · conv_rhs => rw [← min_add_add_right, ← min_add_add_right]
    refine le_min ?_ (le_min ?_ ?_)
    · exact (min_le_left _ _).trans
        ((add_le_add_right ((min_le_right _ _).trans (min_le_left _ _)) _).trans (by omega))
    · exact ((min_le_right _ _).trans (min_le_left _ _)).trans
        ((add_le_add_right ((min_le_right _ _).trans (min_le_left _ _)) _).trans (by omega))
    · exact ((min_le_right _ _).trans (min_le_right _ _)).trans
        ((add_le_add_right ((min_le_right _ _).trans (min_le_left _ _)) _).trans (by omega))
  · conv_rhs => rw [← min_add_add_right, ← min_add_add_right]
    refine le_min ?_ (le_min ?_ ?_)
    · exact (min_le_left _ _).trans
        ((add_le_add_right ((min_le_right _ _).trans (min_le_right _ _)) _).trans (by omega))
    · exact ((min_le_right _ _).trans (min_le_left _ _)).trans
        ((add_le_add_right ((min_le_right _ _).trans (min_le_right _ _)) _).trans (by omega))
    · exact ((min_le_right _ _).trans (min_le_right _ _)).trans
        ((add_le_add_right ((min_le_right _ _).trans (min_le_right _ _)) _).trans (by omega))

theorem min_transpose (b11 b12 b13 b21 b22 b23 b31 b32 b33 u1 u2 u3 v1 v2 v3 : ℕ) :
    min (min (b11 + u1) (min (b12 + u2) (b13 + u3)) + v1)
      (min (min (b21 + u1) (min (b22 + u2) (b23 + u3)) + v2)
        (min (b31 + u1) (min (b32 + u2) (b33 + u3)) + v3)) =
    min (min (b11 + v1) (min (b21 + v2) (b31 + v3)) + u1)
      (min (min (b12 + v1) (min (b22 + v2) (b32 + v3)) + u2)
        (min (b13 + v1) (min (b23 + v2) (b33 + v3)) + u3)) :=
  le_antisymm (min_transpose_le b11 b12 b13 b21 b22 b23 b31 b32 b33 u1 u2 u3 v1 v2 v3)
    (min_transpose_le b11 b21 b31 b12 b22 b32 b13 b23 b33 v1 v2 v3 u1 u2 u3)

theorem levSpec_append_aux (n : Nat) : ∀ (p q : List Char) (c y : Char),
    p.length + q.length ≤ n →
    levSpec (p ++ [c]) (q ++ [y]) =
      min (levSpec (p ++ [c]) q + 1)
        (min (levSpec p (q ++ [y]) + 1) (levSpec p q + costc c y)) := by
  induction n with
  | zero =>
    intro p q c y hlen
    have hp : p = [] := by
      cases p with
      | nil => rfl
      | cons a l => simp at hlen
    have hq : q = [] := by
      cases q with
      | nil => rfl
      | cons a l =>
        subst hp
        simp at hlen
    subst hp
    subst hq
    simp only [List.nil_append]
    rw [levSpec_cons_cons]
    simp [levSpec_nil_left, levSpec_nil_right, levSpec]
  | succ n ih =>
    intro p q c y hlen
    cases p with
    | nil =>
      cases q with
      | nil =>
        simp only [List.nil_append]
        rw [levSpec_cons_cons]
        simp [levSpec_nil_left, levSpec_nil_right, levSpec]
      | cons a q' =>
        have iha := ih [] q' c y (by simp at hlen ⊢; omega)
        simp only [List.nil_append, List.cons_append, levSpec_cons_cons,
          levSpec_nil_left, List.length_append, List.length_cons,
          List.length_nil] at iha ⊢
        omega
    | cons x p' =>
      cases q with
      | nil =>
        have ihp := ih p' [] c y (by simp at hlen ⊢; omega)
        simp only [List.cons_append, List.nil_append, levSpec_cons_cons,
          levSpec_nil_left, levSpec_nil_right, List.length_append,
          List.length_cons, List.length_nil] at ihp ⊢
        omega
      | cons a q' =>
        have h1 := ih p' (a :: q') c y (by simp at hlen ⊢; omega)
        have h2 := ih (x :: p') q' c y (by simp at hlen ⊢; omega)
        have h3 := ih p' q' c y (by simp at hlen ⊢; omega)
        simp only [List.cons_append, levSpec_cons_cons] at h1 h2 h3 ⊢
        rw [h1, h2, h3]
        generalize levSpec (p' ++ [c]) (a :: q') = b1
        generalize levSpec p' (a :: (q' ++ [y])) = b2
        generalize levSpec p' (a :: q') = b3
        generalize levSpec (x :: (p' ++ [c])) q' = b4
        generalize levSpec (x :: p') (q' ++ [y]) = b5
        generalize levSpec (x :: p') q' = b6
        generalize levSpec (p' ++ [c]) q' = b7
        generalize levSpec p' (q' ++ [y]) = b8
        generalize levSpec p' q' = b9
        generalize costc c y = g1
        generalize costc x a = g2
        exact min_transpose b1 b2 b3 b4 b5 b6 b7 b8 b9 1 1 g1 1 1 g2

theorem levSpec_append (p q : List Char) (c y : Char) :
    levSpec (p ++ [c]) (q ++ [y]) =
      min (levSpec (p ++ [c]) q + 1)
        (min (levSpec p (q ++ [y]) + 1) (levSpec p q + costc c y)) :=
  levSpec_append_aux (p.length + q.length) p q c y le_rfl

theorem levNextRow_correct (c : Char) (p : List Char) : ∀ (ys q : List Char),
    levNextRow c ys
      ((List.range ys.length).map (fun j => levSpec p (q ++ ys.take (j + 1))))
      (levSpec p q) (levSpec (p ++ [c]) q) =
    (List.range ys.length).map (fun j => levSpec (p ++ [c]) (q ++ ys.take (j + 1))) := by
  intro ys
  induction ys with
  | nil => intro q; simp [levNextRow]
  | cons y ys ih =>
    intro q
    have hrow : ∀ r : List Char,
        (List.range (y :: ys).length).map
            (fun j => levSpec r (q ++ (y :: ys).take (j + 1))) =
          levSpec r (q ++ [y]) ::
            (List.range ys.length).map
              (fun j => levSpec r ((q ++ [y]) ++ ys.take (j + 1))) := by
      intro r
      rw [List.length_cons, List.range_succ_eq_map, List.map_cons, List.map_map]
      refine congrArg₂ List.cons (by simp)
        (List.map_congr_left fun j hj => by
          simp [List.take_succ_cons, List.append_assoc])
    rw [hrow p, hrow (p ++ [c])]
    rw [levNextRow]
    have he : min (levSpec (p ++ [c]) q + 1)
        (min (levSpec p (q ++ [y]) + 1) (levSpec p q + costc c y)) =
        levSpec (p ++ [c]) (q ++ [y]) := (levSpec_append p q c y).symm
    rw [he, ih (q ++ [y])]

theorem rowFor_zero (p : List Char) (ys : List Char) :
    (List.range (ys.length + 1)).map (fun j => levSpec p (ys.take j)) =
      levSpec p [] ::
        (List.range ys.length).map (fun j => levSpec p (ys.take (j + 1))) := by
  rw [List.range_succ_eq_map, List.map_cons, List.map_map]
  simp [Function.comp]

theorem levStep_correct (c : Char) (p ys : List Char) :
    levStep c ys ((List.range (ys.length + 1)).map (fun j => levSpec p (ys.take j)))
        (p.length + 1) =
      (List.range (ys.length + 1)).map (fun j => levSpec (p ++ [c]) (ys.take j)) := by
  rw [rowFor_zero, rowFor_zero]
  unfold levStep
  simp only [List.tail_cons, List.headD_cons]
  have h1 : levSpec (p ++ [c]) [] = p.length + 1 := by
    rw [levSpec_nil_right, List.length_append, List.length_cons, List.length_nil]
  have h2 := levNextRow_correct c p ys []
  simp only [List.nil_append] at h2
  rw [h1] at h2
  rw [h1, h2]

theorem levLoop_correct (ys : List Char) : ∀ (xs p : List Char),
    levLoop xs ys
        ((List.range (ys.length + 1)).map (fun j => levSpec p (ys.take j)))
        p.length =
      (List.range (ys.length + 1)).map (fun j => levSpec (p ++ xs) (ys.take j)) := by
  intro xs
  induction xs with
  | nil => intro p; simp [levLoop]
  | cons x xs ih =>
    intro p
    rw [levLoop, levStep_correct x p ys]
    have := ih (p ++ [x])
    rw [List.length_append, List.length_cons, List.length_nil] at this
    rw [this, List.append_assoc]
    rfl

theorem levenshtein_eq_levSpec (s1 s2 : List Char) :
    levenshtein s1 s2 = levSpec s1 s2 := by
  unfold levenshtein
  by_cases heq : s1 = s2
  · rw [if_pos heq, heq, levSpec_self]
  · rw [if_neg heq]
    by_cases h1 : s1.length = 0
    · rw [if_pos h1]
      rw [List.length_eq_zero] at h1
      rw [h1, levSpec_nil_left]
    · rw [if_neg h1]
      by_cases h2 : s2.length = 0
      · rw [if_pos h2]
        rw [List.length_eq_zero] at h2
        rw [h2, levSpec_nil_right]
      · rw [if_neg h2]
        have hinit : (List.range (s2.length + 1)).map
            (fun j => levSpec [] (s2.take j)) = List.range (s2.length + 1) := by
          have hfn : ∀ j ∈ List.range (s2.length + 1),
              levSpec [] (s2.take j) = id j := by
            intro j hj
            rw [List.mem_range] at hj
            rw [levSpec_nil_left, List.length_take, id]
            omega
          rw [List.map_congr_left hfn, List.map_id]
        rw [← hinit]
        have := levLoop_correct s2 s1 []
        simp only [List.length_nil, List.nil_append] at this
        rw [this]
        rw [List.getD_eq_getElem _ _ (by simp)]
        rw [List.getElem_map]
        rw [List.getElem_range]
        rw [List.take_length]

theorem floor_div_natCast (a b : Nat) (hb : 0 < b) :
    ⌊(a : ℚ) / (b : ℚ)⌋ = ((a / b : ℕ) : ℤ) := by
  have hq := Nat.div_add_mod a b
  have hr := Nat.mod_lt a hb
  have hbQ : (0 : ℚ) < (b : ℚ) := by exact_mod_cast hb
  have hQ : (b : ℚ) * ((a / b : ℕ) : ℚ) + ((a % b : ℕ) : ℚ) = (a : ℚ) := by
    exact_mod_cast congrArg (fun n : ℕ => (n : ℚ)) hq
  have hrQ : ((a % b : ℕ) : ℚ) < (b : ℚ) := by exact_mod_cast hr
  set q : ℕ := a / b with hqdef
  set r : ℕ := a % b with hrdef
  rw [Int.floor_eq_iff]
  constructor
  · rw [le_div_iff₀ hbQ]
    have hgoal : ((q : ℕ) : ℚ) * (b : ℚ) ≤ (a : ℚ) := by nlinarith [hQ, hrQ]
    exact_mod_cast hgoal
  · rw [div_lt_iff₀ hbQ]
    have hgoal : (a : ℚ) < (((q : ℕ) : ℚ) + 1) * (b : ℚ) := by nlinarith [hQ, hrQ]
    exact_mod_cast hgoal

theorem roundDiv_eq_jsRoundQ (a b : Nat) (hb : 0 < b) :
    ((roundDiv a b : ℕ) : ℤ) = jsRoundQ ((a : ℚ) / (b : ℚ)) := by
  unfold roundDiv jsRoundQ
  have h2b : 0 < 2 * b := by omega
  have harg : (a : ℚ) / (b : ℚ) + 1 / 2 =
      ((2 * a + b : ℕ) : ℚ) / ((2 * b : ℕ) : ℚ) := by
    have hbQ : (b : ℚ) ≠ 0 := by
      exact_mod_cast Nat.pos_iff_ne_zero.mp hb
    push_cast
    field_simp
    ring
  rw [harg, floor_div_natCast _ _ h2b]

theorem levenshtein_le_sum (s1 s2 : List Char) :
    levenshtein s1 s2 ≤ s1.length + s2.length := by
  rw [levenshtein_eq_levSpec]
  exact levSpec_le_sum s1 s2

theorem roundDiv_le_100 {a b : Nat} (hb : 0 < b) (h : a ≤ 100 * b) :
    roundDiv a b ≤ 100 := by
  unfold roundDiv
  have h2b : 0 < 2 * b := by omega
  have : (2 * a + b) / (2 * b) < 101 := by
    rw [Nat.div_lt_iff_lt_mul h2b]
    omega
  omega

theorem roundDiv_all_100 {x : Nat} (hx : 0 < x) : roundDiv (x * 100) x = 100 := by
  unfold roundDiv
  refine le_antisymm ?_ ?_
  · have : (2 * (x * 100) + x) / (2 * x) < 101 := by
      rw [Nat.div_lt_iff_lt_mul (by omega)]
      omega
    omega
  · rw [Nat.le_div_iff_mul_le (by omega : 0 < 2 * x)]
    omega

theorem ratio_le_100 (s1 s2 : List Char) : ratio s1 s2 ≤ 100 := by
  unfold ratio
  split
  · exact le_rfl
  · split
    · omega
    · next h1 h2 =>
      refine roundDiv_le_100 (by omega) ?_
      have := levenshtein_le_sum s1 s2
      omega

theorem ratio_self_100 {s : List Char} (hs : s ≠ []) : ratio s s = 100 := by
  unfold ratio
  have hlen : s.length ≠ 0 := by
    simpa [List.length_eq_zero] using hs
  rw [if_neg (by omega), if_neg (by omega)]
  have hlev : levenshtein s s = 0 := by
    unfold levenshtein
    rw [if_pos rfl]
  rw [hlev, Nat.sub_zero]
  exact roundDiv_all_100 (by omega)

/-- C6: `ratio(s1, s2)` is exactly
`round(((len1 + len2 - d) / (len1 + len2)) * 100)` where `d` is the true
Levenshtein distance (the textbook recurrence, which the source's
rolling-row loop is proven to compute), with 100 for two empty inputs
and 0 when exactly one input is empty. -/
theorem C6_ratio_levenshtein_formula (s1 s2 : List Char) :
    (ratio s1 s2 : ℤ) =
      if s1.length = 0 ∧ s2.length = 0 then 100
      else if s1.length = 0 ∨ s2.length = 0 then 0
      else jsRoundQ ((((s1.length : ℚ) + (s2.length : ℚ) - (levSpec s1 s2 : ℚ)) /
        ((s1.length : ℚ) + (s2.length : ℚ))) * 100) := by
  unfold ratio
  split
  · simp
  · split
    · simp
    · next h1 h2 =>
      have hlen : 0 < s1.length + s2.length := by
        rcases Nat.eq_zero_or_pos s1.length with h | h
        · exact absurd (Or.inl h) h2
        · omega
      have hd : levenshtein s1 s2 ≤ s1.length + s2.length :=
        levenshtein_le_sum s1 s2
      rw [roundDiv_eq_jsRoundQ _ _ hlen]
      congr 1
      rw [levenshtein_eq_levSpec] at hd ⊢
      have hcast : (((s1.length + s2.length - levSpec s1 s2) * 100 : ℕ) : ℚ) =
          ((s1.length : ℚ) + (s2.length : ℚ) - (levSpec s1 s2 : ℚ)) * 100 := by
        push_cast [hd]
        ring
      rw [hcast]
      have hne : ((s1.length + s2.length : ℕ) : ℚ) ≠ 0 := by
        exact_mod_cast Nat.pos_iff_ne_zero.mp hlen
      push_cast at hne ⊢
      field_simp

/-- C10: the source binds `partial_token_set_ratio` to `token_set_ratio`
itself (`partial_token_set_ratio: _fuzz.token_set_ratio`), so the two are
one function: equal results for all inputs and options, and no
sliding-window pass of its own. -/
theorem C10_partial_token_set_is_alias :
    partial_token_set_ratio = token_set_ratio := rfl

theorem splitCh_ne_nil (sep : Char) (l : List Char) : splitCh sep l ≠ [] := by
  cases l with
  | nil => simp [splitCh]
  | cons c rest =>
    rw [splitCh]
    split
    · simp
    · cases h : splitCh sep rest <;> simp [consHead]

theorem splitCh_chars {sep : Char} : ∀ {l t : List Char} {c : Char},
    t ∈ splitCh sep l → c ∈ t → c ∈ l ∧ c ≠ sep := by
  intro l
  induction l with
  | nil =>
    intro t c ht hc
    simp [splitCh] at ht
    subst ht
    simp at hc
  | cons a rest ih =>
    intro t c ht hc
    rw [splitCh] at ht
    by_cases ha : a = sep
    · rw [if_pos ha] at ht
      rcases List.mem_cons.mp ht with ht | ht
      · subst ht; simp at hc
      · have := ih ht hc
        exact ⟨List.mem_cons_of_mem a this.1, this.2⟩
    · rw [if_neg ha] at ht
      rcases h : splitCh sep rest with _ | ⟨t0, ts0⟩
      · exact absurd h (splitCh_ne_nil sep rest)
      · rw [h] at ht
        simp only [consHead] at ht
        rcases List.mem_cons.mp ht with ht | ht
        · subst ht
          rcases List.mem_cons.mp hc with hc | hc
          · rw [hc]
            exact ⟨List.mem_cons_self a rest, ha⟩
          · have := ih (t := t0) (c := c)
              (by rw [h]; exact List.mem_cons_self t0 ts0) hc
            exact ⟨List.mem_cons_of_mem a this.1, this.2⟩
        · have := ih (t := t) (c := c)
            (by rw [h]; exact List.mem_cons_of_mem t0 ht) hc
          exact ⟨List.mem_cons_of_mem a this.1, this.2⟩

theorem firstDedup_subset : ∀ {l : List (List Char)} {t : List Char},
    t ∈ firstDedup l → t ∈ l := by
  intro l
  induction l with
  | nil =>
    intro t ht
    simp [firstDedup] at ht
  | cons x xs ih =>
    intro t ht
    rw [firstDedup] at ht
    rcases List.mem_cons.mp ht with ht | ht
    · rw [ht]; exact List.mem_cons_self x xs
    · exact List.mem_cons_of_mem x (ih (List.mem_of_mem_filter ht))

theorem firstDedup_nil_iff (l : List (List Char)) : firstDedup l = [] ↔ l = [] := by
  cases l with
  | nil => simp [firstDedup]
  | cons x xs => simp [firstDedup]

/-- Token lists the set algebra manipulates: every token nonempty and
free of whitespace characters. -/
def GoodToks (ts : List (List Char)) : Prop :=
  ∀ t ∈ ts, t ≠ [] ∧ ∀ c ∈ t, wsB c = false

theorem GoodToks_of_subset {ts ts' : List (List Char)}
    (hsub : ∀ t ∈ ts', t ∈ ts) (h : GoodToks ts) : GoodToks ts' :=
  fun t ht => h t (hsub t ht)

theorem jsTokens_good {p : List Char} (hp : onlySpaceWs p) :
    GoodToks (jsTokens p) := by
  intro t ht
  unfold jsTokens at ht
  have hmem := List.mem_of_mem_filter ht
  have hne : t ≠ [] := by
    have := List.of_mem_filter ht
    simpa using this
  refine ⟨hne, fun c hc => ?_⟩
  have hc2 := splitCh_chars hmem hc
  by_contra hws
  rw [Bool.not_eq_false] at hws
  have := hp c hc2.1 (by simpa [wsB] using hws)
  exact hc2.2 this

theorem joinSp_cons (t : List Char) (ts : List (List Char)) :
    joinSp (t :: ts) = t ++ (if ts = [] then [] else ' ' :: joinSp ts) := by
  cases ts with
  | nil => simp [joinSp]
  | cons t2 ts2 => simp [joinSp]

theorem joinSp_ne_nil {ts : List (List Char)} (hts : ts ≠ [])
    (hgood : GoodToks ts) : joinSp ts ≠ [] := by
  cases ts with
  | nil => exact absurd rfl hts
  | cons t ts2 =>
    rw [joinSp_cons]
    have := (hgood t (List.mem_cons_self t ts2)).1
    cases t with
    | nil => exact absurd rfl this
    | cons c t0 => simp

theorem dropWhile_wsB_joinSp {ts : List (List Char)} (hts : ts ≠ [])
    (hgood : GoodToks ts) :
    (joinSp ts).dropWhile wsB = joinSp ts := by
  cases ts with
  | nil => exact absurd rfl hts
  | cons t ts2 =>
    obtain ⟨hne, hnw⟩ := hgood t (List.mem_cons_self t ts2)
    cases t with
    | nil => exact absurd rfl hne
    | cons c t0 =>
      rw [joinSp_cons, List.cons_append, List.dropWhile_cons,
        hnw c (List.mem_cons_self c t0)]
      simp

theorem reverse_joinSp_head {ts : List (List Char)} (hts : ts ≠ [])
    (hgood : GoodToks ts) :
    ∃ c r, (joinSp ts).reverse = c :: r ∧ wsB c = false := by
  induction ts with
  | nil => exact absurd rfl hts
  | cons t ts2 ih =>
    obtain ⟨hne, hnw⟩ := hgood t (List.mem_cons_self t ts2)
    cases ts2 with
    | nil =>
      have hrev : t.reverse ≠ [] := by simpa using hne
      obtain ⟨c, r, hcr⟩ := List.exists_cons_of_ne_nil hrev
      refine ⟨c, r, ?_, ?_⟩
      · simpa [joinSp] using hcr
      · have : c ∈ t.reverse := by rw [hcr]; exact List.mem_cons_self c r
        exact hnw c (List.mem_reverse.mp this)
    | cons t2 ts3 =>
      obtain ⟨c, r, hcr, hcw⟩ := ih (by simp)
        (GoodToks_of_subset (fun u hu => List.mem_cons_of_mem t hu) hgood)
      refine ⟨c, r ++ (' ' :: t.reverse), ?_, hcw⟩
      rw [joinSp_cons, if_neg (by simp), List.reverse_append,
        List.reverse_cons, hcr]
      simp

theorem jsTrim_joinSp {ts : List (List Char)} (hgood : GoodToks ts) :
    jsTrim (joinSp ts) = joinSp ts := by
  cases ts with
  | nil => simp [joinSp, jsTrim]
  | cons t ts2 =>
    unfold jsTrim
    rw [dropWhile_wsB_joinSp (by simp) hgood]
    obtain ⟨c, r, hcr, hcw⟩ := reverse_joinSp_head (by simp) hgood
    rw [hcr, List.dropWhile_cons, hcw]
    simp [← hcr]

theorem jsTrim_joinSp_space {ts : List (List Char)} (hts : ts ≠ [])
    (hgood : GoodToks ts) :
    jsTrim (joinSp ts ++ [' ']) = joinSp ts := by
  unfold jsTrim
  have hfront : (joinSp ts ++ [' ']).dropWhile wsB = joinSp ts ++ [' '] := by
    cases ts with
    | nil => exact absurd rfl hts
    | cons t ts2 =>
      obtain ⟨hne, hnw⟩ := hgood t (List.mem_cons_self t ts2)
      cases t with
      | nil => exact absurd rfl hne
      | cons c t0 =>
        rw [joinSp_cons, List.cons_append, List.cons_append, List.dropWhile_cons,
          hnw c (List.mem_cons_self c t0)]
        simp
  rw [hfront, List.reverse_append]
  obtain ⟨c, r, hcr, hcw⟩ := reverse_joinSp_head hts hgood
  have h1 : [' '].reverse ++ (joinSp ts).reverse = ' ' :: c :: r := by
    rw [hcr]; rfl
  rw [h1, List.dropWhile_cons, if_pos (by decide), List.dropWhile_cons,
    if_neg (by simp [hcw])]
  rw [← hcr, List.reverse_reverse]

theorem foldl_max_le {c : ℕ} : ∀ {l : List ℕ} {init : ℕ},
    init ≤ c → (∀ a ∈ l, a ≤ c) → l.foldl max init ≤ c := by
  intro l
  induction l with
  | nil => intro init h0 _; simpa using h0
  | cons a l ih =>
    intro init h0 h
    rw [List.foldl_cons]
    exact ih (max_le h0 (h a (List.mem_cons_self a l)))
      (fun b hb => h b (List.mem_cons_of_mem a hb))

theorem le_foldl_max_init : ∀ (l : List ℕ) (init : ℕ), init ≤ l.foldl max init := by
  intro l
  induction l with
  | nil => intro init; simp
  | cons a l ih =>
    intro init
    rw [List.foldl_cons]
    exact le_trans (le_max_left init a) (ih (max init a))

theorem le_foldl_max_of_mem : ∀ {l : List ℕ} {a : ℕ}, a ∈ l →
    ∀ (init : ℕ), a ≤ l.foldl max init := by
  intro l
  induction l with
  | nil => intro a ha; simp at ha
  | cons b l ih =>
    intro a ha init
    rw [List.foldl_cons]
    rcases List.mem_cons.mp ha with ha | ha
    · rw [ha]
      exact le_trans (le_max_right init b) (le_foldl_max_init l (max init b))
    · exact ih ha (max init b)

theorem partial_ratio_le_100 (s1 s2 : List Char) : partial_ratio s1 s2 ≤ 100 := by
  unfold partial_ratio
  split
  · omega
  · refine foldl_max_le (by omega) (fun a ha => ?_)
    obtain ⟨i, _, hi⟩ := List.mem_map.mp ha
    rw [← hi]
    exact ratio_le_100 _ _

theorem partial_ratio_append {s r : List Char} (hs : s ≠ []) :
    partial_ratio s (s ++ r) = 100 := by
  have hslen : s.length ≠ 0 := by simpa [List.length_eq_zero] using hs
  cases r with
  | nil =>
    rw [List.append_nil]
    unfold partial_ratio
    rw [if_neg (by omega)]
    simp only [lt_irrefl, if_false]
    rw [Nat.sub_self]
    simp only [List.range_succ, List.range_zero, List.nil_append,
      List.map_cons, List.map_nil, List.drop_zero, List.take_length]
    rw [ratio_self_100 hs]
    simp
  | cons d r' =>
    unfold partial_ratio
    rw [if_neg (by simp [hslen])]
    have hlt : s.length < (s ++ d :: r').length := by
      rw [List.length_append]
      simp
    rw [if_pos hlt, if_pos hlt]
    have h0mem : (100 : ℕ) ∈ (List.range ((s ++ d :: r').length - s.length + 1)).map
        (fun i => ratio s (((s ++ d :: r').drop i).take s.length)) := by
      refine List.mem_map.mpr ⟨0, ?_, ?_⟩
      · simp
      · rw [List.drop_zero, List.take_left, ratio_self_100 hs]
    refine le_antisymm ?_ (le_foldl_max_of_mem h0mem 0)
    refine foldl_max_le (by omega) (fun a ha => ?_)
    obtain ⟨i, _, hi⟩ := List.mem_map.mp ha
    rw [← hi]
    exact ratio_le_100 _ _

theorem collapseAux_onlySpace : ∀ (l : List Char) (flag : Bool),
    ∀ c ∈ collapseAux flag l, c.isWhitespace → c = ' ' := by
  intro l
  induction l with
  | nil => intro flag c hc; simp [collapseAux] at hc
  | cons d rest ih =>
    intro flag c hc hw
    rw [collapseAux] at hc
    by_cases hd : wsB d = true
    · rw [if_pos hd] at hc
      cases flag with
      | true => exact ih true c hc hw
      | false =>
        rcases List.mem_cons.mp hc with hc | hc
        · exact hc
        · exact ih true c hc hw
    · rw [if_neg hd] at hc
      rcases List.mem_cons.mp hc with hc | hc
      · rw [hc] at hw
        exact absurd hw (by simpa [wsB] using hd)
      · exact ih false c hc hw

theorem jsTrim_subset {l : List Char} {c : Char} (hc : c ∈ jsTrim l) : c ∈ l := by
  unfold jsTrim at hc
  rw [List.mem_reverse] at hc
  have h1 := (List.dropWhile_sublist (l := (l.dropWhile wsB).reverse) wsB).subset hc
  rw [List.mem_reverse] at h1
  exact (List.dropWhile_sublist wsB).subset h1

theorem full_process_onlySpaceWs (fa : Bool) (s : List Char) :
    onlySpaceWs (full_process fa s) := by
  intro c hc hw
  unfold full_process at hc
  exact collapseAux_onlySpace _ false c (jsTrim_subset hc) hw

theorem sortTok_good {ts : List (List Char)} (h : GoodToks ts) :
    GoodToks (List.insertionSort (fun a b => strLeb a b = true) ts) :=
  GoodToks_of_subset (fun t ht => (List.mem_insertionSort _).mp ht) h

theorem sortedJoin_nil : sortedJoin [] = [] := rfl

theorem sortedJoin_eq_joinSp {ts : List (List Char)} (h : GoodToks ts) :
    sortedJoin ts = joinSp (List.insertionSort (fun a b => strLeb a b = true) ts) :=
  jsTrim_joinSp (sortTok_good h)

theorem insertionSort_ne_nil {α : Type} {r : α → α → Prop} [DecidableRel r]
    {ts : List α} (h : ts ≠ []) : List.insertionSort r ts ≠ [] := by
  intro hcontra
  have := List.length_insertionSort r ts
  rw [hcontra] at this
  simp at this
  exact h (List.length_eq_zero.mp this.symm)

theorem sortedJoin_ne_nil {ts : List (List Char)} (hts : ts ≠ [])
    (h : GoodToks ts) : sortedJoin ts ≠ [] := by
  rw [sortedJoin_eq_joinSp h]
  exact joinSp_ne_nil (insertionSort_ne_nil hts) (sortTok_good h)

theorem max3_eq_100 {a b : ℕ} (ha : a ≤ 100) (hb : b ≤ 100) :
    max a (max 100 b) = 100 := by omega

/-- Core of claims C9 and C2: whenever the two deduplicated token lists
share a token (the code's `intersection` is non-empty),
`token_set_ratio`'s comparison of the sorted intersection against
"intersection + the always-empty second difference" compares a string
with itself and the maximum is exactly 100. -/
theorem token_set_core_eq_100 {p1 p2 : List Char}
    (h1 : onlySpaceWs p1) (h2 : onlySpaceWs p2)
    (hsect : firstDedup ((firstDedup (jsTokens p1)).filter
      (fun x => x ∈ firstDedup (jsTokens p2))) ≠ []) :
    token_set_core p1 p2 = 100 := by
  have hg1 : GoodToks (firstDedup (jsTokens p1)) :=
    GoodToks_of_subset (fun t ht => firstDedup_subset ht) (jsTokens_good h1)
  obtain ⟨t, ts, hts⟩ := List.exists_cons_of_ne_nil hsect
  have htmem : t ∈ firstDedup ((firstDedup (jsTokens p1)).filter
      (fun x => x ∈ firstDedup (jsTokens p2))) := by
    rw [hts]; exact List.mem_cons_self t ts
  have htfilter := firstDedup_subset htmem
  have ht1 : t ∈ firstDedup (jsTokens p1) := List.mem_of_mem_filter htfilter
  have ht2 : t ∈ firstDedup (jsTokens p2) := by
    have := List.of_mem_filter htfilter
    simpa using this
  have hne1 : firstDedup (jsTokens p1) ≠ [] := List.ne_nil_of_mem ht1
  have hne2 : firstDedup (jsTokens p2) ≠ [] := List.ne_nil_of_mem ht2
  unfold token_set_core
  rw [if_neg (by simp [hne1]), if_neg (by simp [hne1, hne2])]
  have hgs : GoodToks (firstDedup ((firstDedup (jsTokens p1)).filter
      (fun x => x ∈ firstDedup (jsTokens p2)))) :=
    GoodToks_of_subset
      (fun u hu => List.mem_of_mem_filter (firstDedup_subset hu)) hg1
  have hdiff2 : (firstDedup (jsTokens p2)).filter
      (fun x => x ∉ firstDedup (jsTokens p2)) = [] := by
    rw [List.filter_eq_nil_iff]
    intro a ha
    simp [ha]
  have hssne : sortedJoin (firstDedup ((firstDedup (jsTokens p1)).filter
      (fun x => x ∈ firstDedup (jsTokens p2)))) ≠ [] :=
    sortedJoin_ne_nil hsect hgs
  rw [if_neg hssne]
  have hcomb2 : jsTrim (sortedJoin (firstDedup ((firstDedup (jsTokens p1)).filter
        (fun x => x ∈ firstDedup (jsTokens p2)))) ++
      ' ' :: sortedJoin (firstDedup ((firstDedup (jsTokens p2)).filter
        (fun x => x ∉ firstDedup (jsTokens p2))))) =
      sortedJoin (firstDedup ((firstDedup (jsTokens p1)).filter
        (fun x => x ∈ firstDedup (jsTokens p2)))) := by
    rw [hdiff2]
    rw [(firstDedup_nil_iff []).mpr rfl, sortedJoin_nil]
    rw [sortedJoin_eq_joinSp hgs]
    exact jsTrim_joinSp_space (insertionSort_ne_nil hsect) (sortTok_good hgs)
  rw [hcomb2, ratio_self_100 hssne]
  exact max3_eq_100 (ratio_le_100 _ _) (ratio_le_100 _ _)

/-- C9: for any two strings whose normalized token sets intersect (the
code's own intersection list is non-empty), `token_set_ratio` returns
exactly 100 — the second set difference is computed by filtering the
second token set against itself, so one compared pair is identical. -/
theorem C9_token_set_intersection_100 (s1 s2 : List Char)
    (hsect : firstDedup ((firstDedup (jsTokens (full_process true s1))).filter
      (fun x => x ∈ firstDedup (jsTokens (full_process true s2)))) ≠ []) :
    token_set_ratio true true s1 s2 = 100 := by
  unfold token_set_ratio procIf
  rw [if_pos rfl, if_pos rfl]
  exact token_set_core_eq_100 (full_process_onlySpaceWs true s1)
    (full_process_onlySpaceWs true s2) hsect

/-- Witness for C9 at `s1 = "a"`, `s2 = "a b"`. -/
theorem C9_token_set_intersection_100_witness :
    token_set_ratio true true ['a'] ['a', ' ', 'b'] = 100 :=
  C9_token_set_intersection_100 ['a'] ['a', ' ', 'b'] (by decide)

/-- C1, evaluated at the failing input `s1 = "a b"`, `s2 = "a c"`: the
source's `token_set_ratio` returns 100 because its `diff2_1` filters
`tokens2` against itself and `combinedB` collapses to the bare
intersection `"a"`; the spec's construction, whose `combinedB = "a c"`
does contain the token of `s2` missing from `s1`, yields 83. -/
theorem C1_token_set_diff_bug_eval :
    token_set_ratio true true ['a', ' ', 'b'] ['a', ' ', 'c'] = 100 ∧
      token_set_spec (full_process true ['a', ' ', 'b'])
        (full_process true ['a', ' ', 'c']) = 83 := by
  constructor
  · decide
  · decide

theorem joinSp_append {A B : List (List Char)} (hA : A ≠ []) (hB : B ≠ []) :
    joinSp (A ++ B) = joinSp A ++ ' ' :: joinSp B := by
  induction A with
  | nil => exact absurd rfl hA
  | cons a A' ih =>
    cases A' with
    | nil =>
      cases B with
      | nil => exact absurd rfl hB
      | cons b B' => simp [joinSp]
    | cons a2 A'' =>
      rw [List.cons_append, joinSp_cons, if_neg (by simp), joinSp_cons,
        if_neg (by simp), ih (by simp), List.append_assoc]
      rfl

/-- The sliding-window spec variant also returns 100 whenever the token
intersection is non-empty: the sorted intersection is a prefix of the
first combined string, and a window of `partial_ratio` matches it
exactly. -/
theorem ptset_spec_eq_100 {p1 p2 : List Char}
    (h1 : onlySpaceWs p1) (h2 : onlySpaceWs p2)
    (hsect : firstDedup ((firstDedup (jsTokens p1)).filter
      (fun x => x ∈ firstDedup (jsTokens p2))) ≠ []) :
    partial_token_set_spec p1 p2 = 100 := by
  have hg1 : GoodToks (firstDedup (jsTokens p1)) :=
    GoodToks_of_subset (fun t ht => firstDedup_subset ht) (jsTokens_good h1)
  obtain ⟨t, ts, hts⟩ := List.exists_cons_of_ne_nil hsect
  have htmem : t ∈ firstDedup ((firstDedup (jsTokens p1)).filter
      (fun x => x ∈ firstDedup (jsTokens p2))) := by
    rw [hts]; exact List.mem_cons_self t ts
  have htfilter := firstDedup_subset htmem
  have ht1 : t ∈ firstDedup (jsTokens p1) := List.mem_of_mem_filter htfilter
  have ht2 : t ∈ firstDedup (jsTokens p2) := by
    have := List.of_mem_filter htfilter
    simpa using this
  have hne1 : firstDedup (jsTokens p1) ≠ [] := List.ne_nil_of_mem ht1
  have hne2 : firstDedup (jsTokens p2) ≠ [] := List.ne_nil_of_mem ht2
  unfold partial_token_set_spec
  rw [if_neg (by simp [hne1]), if_neg (by simp [hne1, hne2])]
  have hgs : GoodToks (firstDedup ((firstDedup (jsTokens p1)).filter
      (fun x => x ∈ firstDedup (jsTokens p2)))) :=
    GoodToks_of_subset
      (fun u hu => List.mem_of_mem_filter (firstDedup_subset hu)) hg1
  have hssne : sortedJoin (firstDedup ((firstDedup (jsTokens p1)).filter
      (fun x => x ∈ firstDedup (jsTokens p2)))) ≠ [] :=
    sortedJoin_ne_nil hsect hgs
  rw [if_neg hssne]
  have hgd1 : GoodToks (firstDedup ((firstDedup (jsTokens p1)).filter
      (fun x => x ∉ firstDedup (jsTokens p2)))) :=
    GoodToks_of_subset
      (fun u hu => List.mem_of_mem_filter (firstDedup_subset hu)) hg1
  have hcomb1 : ∃ rest, jsTrim (sortedJoin (firstDedup ((firstDedup (jsTokens p1)).filter
        (fun x => x ∈ firstDedup (jsTokens p2)))) ++
      ' ' :: sortedJoin (firstDedup ((firstDedup (jsTokens p1)).filter
        (fun x => x ∉ firstDedup (jsTokens p2))))) =
      sortedJoin (firstDedup ((firstDedup (jsTokens p1)).filter
        (fun x => x ∈ firstDedup (jsTokens p2)))) ++ rest := by
    by_cases hd : firstDedup ((firstDedup (jsTokens p1)).filter
        (fun x => x ∉ firstDedup (jsTokens p2))) = []
    · refine ⟨[], ?_⟩
      rw [hd, sortedJoin_nil, List.append_nil]
      rw [sortedJoin_eq_joinSp hgs]
      exact jsTrim_joinSp_space (insertionSort_ne_nil hsect) (sortTok_good hgs)
    · refine ⟨' ' :: sortedJoin (firstDedup ((firstDedup (jsTokens p1)).filter
        (fun x => x ∉ firstDedup (jsTokens p2)))), ?_⟩
      rw [sortedJoin_eq_joinSp hgs, sortedJoin_eq_joinSp hgd1]
      rw [← joinSp_append (insertionSort_ne_nil hsect) (insertionSort_ne_nil hd)]
      have hgapp : GoodToks ((List.insertionSort (fun a b => strLeb a b = true)
          (firstDedup ((firstDedup (jsTokens p1)).filter
            (fun x => x ∈ firstDedup (jsTokens p2))))) ++
          (List.insertionSort (fun a b => strLeb a b = true)
          (firstDedup ((firstDedup (jsTokens p1)).filter
            (fun x => x ∉ firstDedup (jsTokens p2)))))) := by
        intro u hu
        rcases List.mem_append.mp hu with hu | hu
        · exact sortTok_good hgs u hu
        · exact sortTok_good hgd1 u hu
      rw [jsTrim_joinSp hgapp]
  obtain ⟨rest, hrest⟩ := hcomb1
  rw [hrest, partial_ratio_append hssne]
  have hb := partial_ratio_le_100
    (sortedJoin (firstDedup ((firstDedup (jsTokens p1)).filter
      (fun x => x ∈ firstDedup (jsTokens p2)))))
    (jsTrim (sortedJoin (firstDedup ((firstDedup (jsTokens p1)).filter
        (fun x => x ∈ firstDedup (jsTokens p2)))) ++
      ' ' :: sortedJoin (firstDedup ((firstDedup (jsTokens p2)).filter
        (fun x => x ∉ firstDedup (jsTokens p1))))))
  have hc := partial_ratio_le_100
    (sortedJoin (firstDedup ((firstDedup (jsTokens p1)).filter
        (fun x => x ∈ firstDedup (jsTokens p2)))) ++ rest)
    (jsTrim (sortedJoin (firstDedup ((firstDedup (jsTokens p1)).filter
        (fun x => x ∈ firstDedup (jsTokens p2)))) ++
      ' ' :: sortedJoin (firstDedup ((firstDedup (jsTokens p2)).filter
        (fun x => x ∉ firstDedup (jsTokens p1))))))
  omega

/-- On whitespace-normalized inputs the spec's sliding-window
`partial_token_set_ratio` and the code's aliased `token_set_ratio`
agree everywhere. -/
theorem ptset_spec_eq_core (p1 p2 : List Char)
    (h1 : onlySpaceWs p1) (h2 : onlySpaceWs p2) :
    partial_token_set_spec p1 p2 = token_set_core p1 p2 := by
  by_cases hs : firstDedup ((firstDedup (jsTokens p1)).filter
      (fun x => x ∈ firstDedup (jsTokens p2))) = []
  · simp only [partial_token_set_spec, token_set_core]
    rw [hs]
    simp [sortedJoin_nil]
  · rw [ptset_spec_eq_100 h1 h2 hs, token_set_core_eq_100 h1 h2 hs]

/-- C2: on non-empty normalized inputs (their only whitespace is single
spaces, as `full_process` guarantees), `WRatio` is the rounded maximum
of a candidate set that always holds `ratio`, `token_sort_ratio * 0.95`
and `token_set_ratio * 0.95`, and, exactly when
`max(len1,len2)/min(len1,len2) > 1.5`, additionally `partial_ratio`,
`partial_token_sort_ratio * 0.95` and a sliding-window
`partial_token_set_ratio * 0.95`, each further scaled by 0.9. -/
theorem C2_WRatio_candidate_set (p1 p2 : List Char)
    (hne1 : p1 ≠ []) (hne2 : p2 ≠ []) (h1 : onlySpaceWs p1) (h2 : onlySpaceWs p2) :
    WRatio true false p1 p2 =
      jsRoundQ (maxQ ((ratio p1 p2 : ℕ) : ℚ)
        ([((token_sort_ratio true false p1 p2 : ℕ) : ℚ) * (95 / 100),
          ((token_set_ratio true false p1 p2 : ℕ) : ℚ) * (95 / 100)] ++
         (if 3 / 2 < ((max p1.length p2.length : ℕ) : ℚ) /
             ((min p1.length p2.length : ℕ) : ℚ) then
           [((partial_ratio p1 p2 : ℕ) : ℚ) * (9 / 10),
            ((partial_token_sort_ratio true false p1 p2 : ℕ) : ℚ) *
              (95 / 100) * (9 / 10),
            ((partial_token_set_spec p1 p2 : ℕ) : ℚ) * (95 / 100) * (9 / 10)]
          else []))) := by
  have hl1 : p1.length ≠ 0 := by simpa [List.length_eq_zero] using hne1
  have hl2 : p2.length ≠ 0 := by simpa [List.length_eq_zero] using hne2
  have hlr : (if p2.length < p1.length then (p1.length : ℚ) / (p2.length : ℚ)
        else (p2.length : ℚ) / (p1.length : ℚ)) =
      ((max p1.length p2.length : ℕ) : ℚ) / ((min p1.length p2.length : ℕ) : ℚ) := by
    by_cases hlt : p2.length < p1.length
    · rw [if_pos hlt, Nat.max_eq_left (le_of_lt hlt), Nat.min_eq_right (le_of_lt hlt)]
    · rw [if_neg hlt, Nat.max_eq_right (le_of_not_lt hlt),
        Nat.min_eq_left (le_of_not_lt hlt)]
  have hpts : partial_token_set_ratio true false p1 p2 =
      partial_token_set_spec p1 p2 := by
    show token_set_ratio true false p1 p2 = _
    unfold token_set_ratio procIf
    rw [if_neg (by simp), if_neg (by simp)]
    exact (ptset_spec_eq_core p1 p2 h1 h2).symm
  have hproc : ∀ (fa : Bool) (s : List Char), procIf fa false s = s := fun _ _ => rfl
  unfold WRatio WRatioCore
  simp only [hproc]
  rw [if_neg (by simp [hl1, hl2])]
  simp only [hlr, hpts]
  by_cases hcond : (3 : ℚ) / 2 <
      ((max p1.length p2.length : ℕ) : ℚ) / ((min p1.length p2.length : ℕ) : ℚ)
  · simp only [if_pos hcond]
  · simp only [if_neg hcond]

theorem mem_keptPairs {scorer : List Char → List Char → Nat}
    {processor : List Char → List Char} {query : List Char}
    {choices : List (Option (List Char))} {cutoff : Nat}
    {s : List Char} {sc : Nat} :
    (s, sc) ∈ keptPairs scorer processor query choices cutoff ↔
      some s ∈ choices ∧ sc = scorer (processor query) (processor s) ∧
        cutoff ≤ sc := by
  unfold keptPairs
  rw [List.mem_filterMap]
  constructor
  · rintro ⟨a, ha, hfa⟩
    match a with
    | none => simp at hfa
    | some choice =>
      have hfa2 : (if cutoff ≤ scorer (processor query) (processor choice) then
          some (choice, scorer (processor query) (processor choice))
          else none) = some (s, sc) := hfa
      by_cases hcut : cutoff ≤ scorer (processor query) (processor choice)
      · rw [if_pos hcut] at hfa2
        have := Option.some.inj hfa2
        have hch : choice = s := congrArg Prod.fst this
        have hsc : scorer (processor query) (processor choice) = sc :=
          congrArg Prod.snd this
        rw [hch] at ha hsc
        rw [hch] at hcut
        exact ⟨ha, hsc.symm, hsc ▸ hcut⟩
      · rw [if_neg hcut] at hfa2
        simp at hfa2
  · rintro ⟨hs, hsc, hcut⟩
    refine ⟨some s, hs, ?_⟩
    show (if cutoff ≤ scorer (processor query) (processor s) then
        some (s, scorer (processor query) (processor s)) else none) = some (s, sc)
    rw [hsc] at hcut
    rw [if_pos hcut, hsc]

theorem filter_orderedInsert_eq {c : Nat} {a : List Char × Nat} (ha : a.2 = c) :
    ∀ l, (List.orderedInsert scoreDesc a l).filter (fun p => p.2 == c) =
      a :: l.filter (fun p => p.2 == c) := by
  intro l
  induction l with
  | nil => simp [List.orderedInsert, ha]
  | cons x l ih =>
    rw [List.orderedInsert]
    by_cases h : scoreDesc a x
    · rw [if_pos h, List.filter_cons, List.filter_cons]
      simp [ha]
    · have hx : (x.2 == c) = false := by
        have : a.2 < x.2 := lt_of_not_le h
        rw [ha] at this
        simp
        omega
      rw [if_neg h, List.filter_cons, hx, ih, List.filter_cons, hx]
      simp

theorem filter_orderedInsert_ne {c : Nat} {a : List Char × Nat} (ha : a.2 ≠ c) :
    ∀ l, (List.orderedInsert scoreDesc a l).filter (fun p => p.2 == c) =
      l.filter (fun p => p.2 == c) := by
  intro l
  have hac : (a.2 == c) = false := by simpa using ha
  induction l with
  | nil => simp [List.orderedInsert, hac]
  | cons x l ih =>
    rw [List.orderedInsert]
    by_cases h : scoreDesc a x
    · rw [if_pos h, List.filter_cons, hac, List.filter_cons]
      simp
    · rw [if_neg h, List.filter_cons, ih, List.filter_cons]

theorem filter_insertionSort_score (c : Nat) (l : List (List Char × Nat)) :
    (List.insertionSort scoreDesc l).filter (fun p => p.2 == c) =
      l.filter (fun p => p.2 == c) := by
  induction l with
  | nil => rfl
  | cons a l ih =>
    rw [List.insertionSort]
    by_cases ha : a.2 = c
    · rw [filter_orderedInsert_eq ha, ih, List.filter_cons]
      simp [ha]
    · rw [filter_orderedInsert_ne ha, ih, List.filter_cons]
      simp only [show (a.2 == c) = false from by simpa using ha]
      simp

theorem filterMap_skip_none {α β : Type} (f : Option α → Option β)
    (hf : f none = none) (l : List (Option α)) :
    (l.filter (fun c => c.isSome)).filterMap f = l.filterMap f := by
  induction l with
  | nil => rfl
  | cons a l ih =>
    cases a with
    | none =>
      rw [List.filter_cons, List.filterMap_cons, hf]
      simpa using ih
    | some x =>
      rw [List.filter_cons]
      simp only [Option.isSome_some, if_pos]
      rw [List.filterMap_cons, List.filterMap_cons]
      cases hfx : f (some x) with
      | none => exact ih
      | some y => rw [ih]

/-- C5: `extractBests` (a) retains exactly the candidates whose score
reaches the cutoff, (b) returns them sorted by descending score, (c)
stably — ties keep their input order, (d) truncates to `limit` with (e)
no truncation when `limit` is null, and (f) skips null candidates
without scoring them. -/
theorem C5_extractBests_spec (scorer : List Char → List Char → Nat)
    (processor : List Char → List Char) (query : List Char)
    (choices : List (Option (List Char))) (limit : Option Nat) (cutoff : Nat) :
    (∀ (s : List Char) (sc : Nat),
        (s, sc) ∈ extractBests scorer processor query choices none cutoff ↔
          (some s ∈ choices ∧ sc = scorer (processor query) (processor s) ∧
            cutoff ≤ sc)) ∧
    List.Pairwise scoreDesc (extractBests scorer processor query choices limit cutoff) ∧
    (∀ c : Nat, (extractBests scorer processor query choices none cutoff).filter
          (fun p => p.2 == c) =
        (keptPairs scorer processor query choices cutoff).filter (fun p => p.2 == c)) ∧
    (∀ n : Nat, extractBests scorer processor query choices (some n) cutoff =
      (extractBests scorer processor query choices none cutoff).take n) ∧
    (extractBests scorer processor query choices none cutoff).length =
      (keptPairs scorer processor query choices cutoff).length ∧
    extractBests scorer processor query choices limit cutoff =
      extractBests scorer processor query (choices.filter (fun c => c.isSome))
        limit cutoff := by
  refine ⟨?_, ?_, ?_, ?_, ?_, ?_⟩
  · intro s sc
    show (s, sc) ∈ List.insertionSort scoreDesc
        (keptPairs scorer processor query choices cutoff) ↔ _
    rw [List.mem_insertionSort]
    exact mem_keptPairs
  · have hsorted : List.Pairwise scoreDesc (List.insertionSort scoreDesc
        (keptPairs scorer processor query choices cutoff)) :=
      List.sorted_insertionSort scoreDesc _
    cases limit with
    | none => exact hsorted
    | some n =>
      exact List.Pairwise.sublist (List.take_sublist n _) hsorted
  · intro c
    exact filter_insertionSort_score c _
  · intro n
    rfl
  · exact List.length_insertionSort _ _
  · show (match limit with
      | none => List.insertionSort scoreDesc (keptPairs scorer processor query choices cutoff)
      | some n => (List.insertionSort scoreDesc (keptPairs scorer processor query choices cutoff)).take n) = _
    unfold extractBests keptPairs
    rw [filterMap_skip_none _ rfl]

theorem extractBests_fst_mem {scorer : List Char → List Char → Nat}
    {processor : List Char → List Char} {query : List Char}
    {choices : List (Option (List Char))} {limit : Option Nat} {cutoff : Nat}
    {p : List Char × Nat}
    (hp : p ∈ extractBests scorer processor query choices limit cutoff) :
    some p.1 ∈ choices := by
  rcases p with ⟨s, sc⟩
  have hmem : (s, sc) ∈ List.insertionSort scoreDesc
      (keptPairs scorer processor query choices cutoff) := by
    cases limit with
    | none => exact hp
    | some n => exact List.mem_of_mem_take hp
  rw [List.mem_insertionSort] at hmem
  exact (mem_keptPairs.mp hmem).1

theorem headD_mem {α : Type} {l : List α} (h : l ≠ []) (d : α) : l.headD d ∈ l := by
  cases l with
  | nil => exact absurd rfl h
  | cons a l => simp

theorem dedupeStep_keys_subset (scorer : List Char → List Char → Nat)
    (threshold : Nat) (L : List (List Char))
    (acc : List (List Char) × List (List Char)) (item : List Char) :
    ∀ k ∈ (dedupeStep scorer threshold L acc item).2, k ∈ acc.2 ∨ k ∈ L := by
  intro k hk
  simp only [dedupeStep] at hk
  by_cases h1 : item ∈ acc.1
  · rw [if_pos h1] at hk
    exact Or.inl hk
  · rw [if_neg h1] at hk
    by_cases h2 : extractBests scorer (full_process false) item (L.map some)
        none threshold = []
    · rw [if_pos h2] at hk
      exact Or.inl hk
    · rw [if_neg h2] at hk
      have hsne : List.insertionSort canonDesc
          (extractBests scorer (full_process false) item (L.map some)
            none threshold) ≠ [] := insertionSort_ne_nil h2
      have hcanon : ((List.insertionSort canonDesc
          (extractBests scorer (full_process false) item (L.map some)
            none threshold)).headD ([], 0)).1 ∈ L := by
        have hmem := headD_mem hsne ([], 0)
        rw [List.mem_insertionSort] at hmem
        have := extractBests_fst_mem hmem
        rcases List.mem_map.mp this with ⟨x, hx, hxe⟩
        rw [← Option.some.inj hxe]
        exact hx
      by_cases h3 : ((List.insertionSort canonDesc
          (extractBests scorer (full_process false) item (L.map some)
            none threshold)).headD ([], 0)).1 ∈ acc.2
      · rw [if_pos h3] at hk
        exact Or.inl hk
      · rw [if_neg h3] at hk
        rcases List.mem_append.mp hk with hk | hk
        · exact Or.inl hk
        · rw [List.mem_singleton.mp hk]
          exact Or.inr hcanon

theorem dedupe_fold_keys_subset (scorer : List Char → List Char → Nat)
    (threshold : Nat) (L : List (List Char)) :
    ∀ (items : List (List Char)) (acc : List (List Char) × List (List Char)),
      (∀ k ∈ acc.2, k ∈ L) →
      ∀ k ∈ (items.foldl (dedupeStep scorer threshold L) acc).2, k ∈ L := by
  intro items
  induction items with
  | nil => intro acc hacc k hk; exact hacc k hk
  | cons item items ih =>
    intro acc hacc k hk
    rw [List.foldl_cons] at hk
    refine ih (dedupeStep scorer threshold L acc item) ?_ k hk
    intro k2 hk2
    rcases dedupeStep_keys_subset scorer threshold L acc item k2 hk2 with h | h
    · exact hacc k2 h
    · exact h

theorem dedupe_subset (scorer : List Char → List Char → Nat) (threshold : Nat)
    (L : List (List Char)) : ∀ k ∈ dedupe scorer threshold L, k ∈ L := by
  intro k hk
  simp only [dedupe] at hk
  by_cases hL : L = []
  · rw [if_pos hL] at hk
    simp at hk
  · rw [if_neg hL] at hk
    by_cases hlen : ((L.foldl (dedupeStep scorer threshold L) ([], [])).2).length
        = L.length
    · rw [if_pos hlen] at hk
      exact hk
    · rw [if_neg hlen] at hk
      exact dedupe_fold_keys_subset scorer threshold L L ([], [])
        (by intro k2 hk2; simp at hk2) k hk

/-- C8 (amended): re-running `dedupe` on its own output with the same
threshold and scorer returns a subset of that output's strings — the
run can merge surviving cluster keys that score above the threshold
against each other, so the set can shrink and idempotence fails. -/
theorem C8_dedupe_reapply_subset (scorer : List Char → List Char → Nat)
    (threshold : Nat) (l : List (List Char)) :
    ∀ x ∈ dedupe scorer threshold (dedupe scorer threshold l),
      x ∈ dedupe scorer threshold l :=
  fun x hx => dedupe_subset scorer threshold (dedupe scorer threshold l) x hx

/-- Witness for C8's amended claim: on
`["a", "b", "a c", "b c"]` with the default scorer and threshold, the
sole survivor of the second run, `"a c"`, is indeed in the first run's
output. -/
theorem C8_dedupe_reapply_subset_witness :
    ['a', ' ', 'c'] ∈ dedupe (token_set_ratio true false) 70
      [['a'], ['b'], ['a', ' ', 'c'], ['b', ' ', 'c']] :=
  C8_dedupe_reapply_subset (token_set_ratio true false) 70
    [['a'], ['b'], ['a', ' ', 'c'], ['b', ' ', 'c']] ['a', ' ', 'c'] (by decide)

/-- Counterexample to C8 as stated: with the default `token_set_ratio`
scorer and threshold 70, `dedupe ["a", "b", "a c", "b c"]` returns
`["a c", "b c"]`, but `dedupe` of that output is `["a c"]` — the string
`"b c"` is dropped, so dedupe of dedupe's output is not the same set. -/
theorem C8_dedupe_not_idempotent_cex :
    dedupe (token_set_ratio true false) 70
        [['a'], ['b'], ['a', ' ', 'c'], ['b', ' ', 'c']] =
      [['a', ' ', 'c'], ['b', ' ', 'c']] ∧
    dedupe (token_set_ratio true false) 70 [['a', ' ', 'c'], ['b', ' ', 'c']] =
      [['a', ' ', 'c']] ∧
    ¬ (['b', ' ', 'c'] ∈ dedupe (token_set_ratio true false) 70
        (dedupe (token_set_ratio true false) 70
          [['a'], ['b'], ['a', ' ', 'c'], ['b', ' ', 'c']])) :=
  ⟨by decide, by decide, by decide⟩

/-- Witness for C2 at `p1 = "a"`, `p2 = "b"`. -/
theorem C2_WRatio_candidate_set_witness :
    WRatio true false ['a'] ['b'] =
      jsRoundQ (maxQ ((ratio ['a'] ['b'] : ℕ) : ℚ)
        ([((token_sort_ratio true false ['a'] ['b'] : ℕ) : ℚ) * (95 / 100),
          ((token_set_ratio true false ['a'] ['b'] : ℕ) : ℚ) * (95 / 100)] ++
         (if 3 / 2 < ((max (['a'] : List Char).length (['b'] : List Char).length : ℕ) : ℚ) /
             ((min (['a'] : List Char).length (['b'] : List Char).length : ℕ) : ℚ) then
           [((partial_ratio ['a'] ['b'] : ℕ) : ℚ) * (9 / 10),
            ((partial_token_sort_ratio true false ['a'] ['b'] : ℕ) : ℚ) *
              (95 / 100) * (9 / 10),
            ((partial_token_set_spec ['a'] ['b'] : ℕ) : ℚ) * (95 / 100) * (9 / 10)]
          else []))) :=
  C2_WRatio_candidate_set ['a'] ['b'] (by decide) (by decide) (by decide) (by decide)

theorem candStep_score_inv
    (wordMatch : List Char → List Char → Nat → ℤ → Option FuseMatchResult)
    (m : Matcher) (transcript : List Char) (currentPosition : ℤ)
    (acc : Option FuseMatchResult × ℚ) (i : Nat)
    (hacc : ∀ x, acc.1 = some x → acc.2 = x.score) :
    ∀ x, (candStep wordMatch m transcript currentPosition acc i).1 = some x →
      (candStep wordMatch m transcript currentPosition acc i).2 = x.score := by
  intro x hx
  simp only [candStep] at hx ⊢
  cases hwm : wordMatch (m.sentences.getD i [])
      transcript (m.sentenceWordOffsets.getD i 0) currentPosition with
  | none =>
    simp only [hwm] at hx
    exact hacc x hx
  | some wm =>
    simp only [hwm] at hx ⊢
    by_cases hlt : acc.2 < wm.score
    · rw [if_pos hlt] at hx ⊢
      rw [← Option.some.inj hx]
    · rw [if_neg hlt] at hx ⊢
      exact hacc x hx

theorem bestOfCandidates_score (sentSearch : List Char → List Nat)
    (wordMatch : List Char → List Char → Nat → ℤ → Option FuseMatchResult)
    (m : Matcher) (transcript : List Char) (currentPosition : ℤ)
    (bm : FuseMatchResult)
    (h : (bestOfCandidates sentSearch wordMatch m transcript currentPosition).1
      = some bm) :
    (bestOfCandidates sentSearch wordMatch m transcript currentPosition).2
      = bm.score := by
  have hfold : ∀ (idxs : List Nat) (acc : Option FuseMatchResult × ℚ),
      (∀ x, acc.1 = some x → acc.2 = x.score) →
      ∀ x, (idxs.foldl (candStep wordMatch m transcript currentPosition) acc).1
          = some x →
        (idxs.foldl (candStep wordMatch m transcript currentPosition) acc).2
          = x.score := by
    intro idxs
    induction idxs with
    | nil => intro acc hacc x hx; exact hacc x hx
    | cons i idxs ih =>
      intro acc hacc x hx
      rw [List.foldl_cons] at hx ⊢
      exact ih (candStep wordMatch m transcript currentPosition acc i)
        (candStep_score_inv wordMatch m transcript currentPosition acc i hacc) x hx
  exact hfold ((sentSearch transcript).take 3) (none, 0)
    (by intro x hx; exact absurd hx (by simp)) bm h

/-- C4: the jump guard of `findBestMatch` — whenever a prior position
`p` other than the `-1` sentinel is known, and the candidate loop's best
match sits more than 20 words away from `p` in absolute distance while
its score stays below the 0.8 high-confidence threshold, `findBestMatch`
returns `none` instead of that match. -/
theorem C4_jump_guard (sentSearch : List Char → List Nat)
    (wordMatch : List Char → List Char → Nat → ℤ → Option FuseMatchResult)
    (m : Matcher) (transcript : List Char) (p : ℤ) (bm : FuseMatchResult)
    (hp : p ≠ -1)
    (hbm : (bestOfCandidates sentSearch wordMatch m transcript p).1 = some bm)
    (hdist : 20 < (bm.index - p).natAbs)
    (hscore : bm.score < mkRat 4 5) :
    findBestMatch sentSearch wordMatch m transcript p = none := by
  unfold findBestMatch
  by_cases h1 : jsTrim transcript = [] ∨ m.words = []
  · rw [if_pos h1]
  · rw [if_neg h1]
    by_cases h2 : wsSplitTokens (toLowerStr transcript) = []
    · rw [if_pos h2]
    · rw [if_neg h2]
      by_cases h3 : sentSearch transcript = []
      · rw [if_pos h3]
      · rw [if_neg h3]
        have hsc := bestOfCandidates_score sentSearch wordMatch m transcript p bm hbm
        simp only [hbm, hsc]
        rw [if_pos ⟨hp, hdist, hscore⟩]

/-- Witness for C4: a one-word script whose word-level matcher reports a
match at index 30 with score 1/2; from prior position 0 the jump guard
fires and `findBestMatch` returns `none`. -/
theorem C4_jump_guard_witness :
    findBestMatch (fun _ => [0])
      (fun _ _ _ _ => some ⟨30, mkRat 1 2, [], -1, []⟩)
      ⟨[['a']], [['a']], [0]⟩ ['a'] 0 = none :=
  C4_jump_guard (fun _ => [0])
    (fun _ _ _ _ => some ⟨30, mkRat 1 2, [], -1, []⟩)
    ⟨[['a']], [['a']], [0]⟩ ['a'] 0 ⟨30, mkRat 1 2, [], -1, []⟩
    (by decide) (by decide) (by decide) (by decide)

theorem mem_drop_range_le {m n x : Nat} (h : x ∈ (List.range n).drop m) : m ≤ x := by
  obtain ⟨i, hi, hx⟩ := List.getElem_of_mem h
  rw [List.getElem_drop, List.getElem_range] at hx
  omega

theorem jsSlice_id_ge {st : TrackerState} (hwf : TrackerWF st) {s e : ℤ}
    (hs0 : 0 ≤ s) {w : ScriptWord} (hw : w ∈ jsSlice st.scriptWords s e) :
    s ≤ (w.id : ℤ) := by
  unfold TrackerWF at hwf
  simp only [jsSlice] at hw
  rw [if_neg (not_lt.mpr hs0)] at hw
  have hw2 := List.mem_of_mem_take hw
  have hid : w.id ∈ ((st.scriptWords.map (fun x => x.id)).drop
      (min s (st.scriptWords.length : ℤ)).toNat) := by
    rw [← List.map_drop]
    exact List.mem_map_of_mem _ hw2
  rw [hwf] at hid
  have hlt : w.id < st.scriptWords.length :=
    List.mem_range.mp (List.mem_of_mem_drop hid)
  have hge := mem_drop_range_le hid
  by_cases hsn : s ≤ (st.scriptWords.length : ℤ)
  · rw [min_eq_left hsn] at hge
    omega
  · rw [min_eq_right (le_of_not_le hsn)] at hge
    omega

theorem finStep_mono (search : List ScriptWord → List Char → Option ScriptWord)
    (hs : ∀ sl q w, search sl q = some w → w ∈ sl)
    (st : TrackerState) (hwf : TrackerWF st) (acc : ℤ × List Nat)
    (w : List Char) : acc.1 ≤ (finStep search st acc w).1 := by
  simp only [finStep]
  by_cases hsl : jsSlice st.scriptWords (acc.1 + 1)
      (acc.1 + 1 + SEARCH_WINDOW_SIZE) = []
  · rw [if_pos hsl]
  · rw [if_neg hsl]
    cases hse : search (jsSlice st.scriptWords (acc.1 + 1)
        (acc.1 + 1 + SEARCH_WINDOW_SIZE)) w with
    | none => simp only [hse]; exact le_refl _
    | some bm =>
      simp only [hse]
      show acc.1 ≤ (bm.id : ℤ)
      by_cases hneg : acc.1 < 0
      · have h0 : (0:ℤ) ≤ (bm.id : ℤ) := Int.natCast_nonneg _
        omega
      · have hmem := hs _ _ _ hse
        have hge := jsSlice_id_ge hwf (by omega) hmem
        omega

theorem foldl_finStep_mono (search : List ScriptWord → List Char → Option ScriptWord)
    (hs : ∀ sl q w, search sl q = some w → w ∈ sl)
    (st : TrackerState) (hwf : TrackerWF st) :
    ∀ (ws : List (List Char)) (acc : ℤ × List Nat),
      acc.1 ≤ (ws.foldl (finStep search st) acc).1 := by
  intro ws
  induction ws with
  | nil => intro acc; exact le_refl _
  | cons w ws ih =>
    intro acc
    rw [List.foldl_cons]
    exact le_trans (finStep_mono search hs st hwf acc w) (ih _)

theorem handleFinalTranscript_mono
    (search : List ScriptWord → List Char → Option ScriptWord)
    (hs : ∀ sl q w, search sl q = some w → w ∈ sl)
    (st : TrackerState) (hwf : TrackerWF st) (text : List Char) :
    st.lastMatchedWordIndex ≤
      (handleFinalTranscript search text st).lastMatchedWordIndex := by
  unfold handleFinalTranscript
  by_cases ht : text = []
  · rw [if_pos ht]
  · rw [if_neg ht]
    exact foldl_finStep_mono search hs st hwf
      ((splitSp (toLowerStr text)).filter (fun w => w ≠ []))
      (st.lastMatchedWordIndex, [])

theorem markSpokenUpTo_ids (idx : Nat) (ws : List ScriptWord) :
    (markSpokenUpTo idx ws).map (fun w => w.id) = ws.map (fun w => w.id) := by
  apply List.ext_getElem
  · simp [markSpokenUpTo]
  · intro i h1 h2
    simp only [markSpokenUpTo, List.getElem_map, List.getElem_mapIdx]
    split <;> rfl

theorem markFold_ids (ids : List Nat) (ws : List ScriptWord) :
    ((ids.foldl (fun a idx => markSpokenUpTo idx a) ws).map (fun w => w.id))
      = ws.map (fun w => w.id) := by
  induction ids generalizing ws with
  | nil => rfl
  | cons i ids ih => rw [List.foldl_cons, ih, markSpokenUpTo_ids]

theorem markFold_length (ids : List Nat) (ws : List ScriptWord) :
    (ids.foldl (fun a idx => markSpokenUpTo idx a) ws).length = ws.length := by
  have h := congrArg List.length (markFold_ids ids ws)
  simpa using h

theorem TrackerWF_handleFinal
    (search : List ScriptWord → List Char → Option ScriptWord)
    (text : List Char) (st : TrackerState) (hwf : TrackerWF st) :
    TrackerWF (handleFinalTranscript search text st) := by
  unfold handleFinalTranscript
  by_cases ht : text = []
  · rw [if_pos ht]; exact hwf
  · rw [if_neg ht]
    unfold TrackerWF at hwf ⊢
    simp only
    rw [markFold_ids, markFold_length]
    exact hwf

theorem processFinals_cons (search : List ScriptWord → List Char → Option ScriptWord)
    (t : List Char) (ts : List (List Char)) (st : TrackerState) :
    processFinals search (t :: ts) st =
      processFinals search ts (handleFinalTranscript search t st) := rfl

theorem processFinals_mono_wf
    (search : List ScriptWord → List Char → Option ScriptWord)
    (hs : ∀ sl q w, search sl q = some w → w ∈ sl) :
    ∀ (texts : List (List Char)) (st : TrackerState), TrackerWF st →
      TrackerWF (processFinals search texts st) ∧
      st.lastMatchedWordIndex ≤
        (processFinals search texts st).lastMatchedWordIndex := by
  intro texts
  induction texts with
  | nil => intro st hwf; exact ⟨hwf, le_refl _⟩
  | cons t ts ih =>
    intro st hwf
    have h1 := TrackerWF_handleFinal search t st hwf
    obtain ⟨hwf2, hmono⟩ := ih (handleFinalTranscript search t st) h1
    rw [processFinals_cons]
    exact ⟨hwf2,
      le_trans (handleFinalTranscript_mono search hs st hwf t) hmono⟩

/-- C3: over any sequence of final transcript events, processed by
`handleFinalTranscript` from a well-formed tracker state (word ids equal
to positions) and a search that only returns members of the window it
was given, `lastMatchedWordIndex` never decreases; the only way it
decreases is the explicit reset, which sets it back to the -1
sentinel. -/
theorem C3_tracker_monotone
    (search : List ScriptWord → List Char → Option ScriptWord)
    (hs : ∀ sl q w, search sl q = some w → w ∈ sl)
    (st : TrackerState) (hwf : TrackerWF st) (texts : List (List Char)) :
    st.lastMatchedWordIndex ≤
        (processFinals search texts st).lastMatchedWordIndex ∧
      (resetVoiceMode st).lastMatchedWordIndex = -1 :=
  ⟨(processFinals_mono_wf search hs texts st hwf).2, rfl⟩

/-- Witness for C3: a one-word script starting at the -1 sentinel, a
head-of-window search, and the single final event "c". -/
theorem C3_tracker_monotone_witness :
    (⟨[⟨0, ['c'], ['c'], false, false⟩], -1⟩ : TrackerState).lastMatchedWordIndex ≤
        (processFinals (fun sl _ => sl.head?) [['c']]
          ⟨[⟨0, ['c'], ['c'], false, false⟩], -1⟩).lastMatchedWordIndex ∧
      (resetVoiceMode
        ⟨[⟨0, ['c'], ['c'], false, false⟩], -1⟩).lastMatchedWordIndex = -1 :=
  C3_tracker_monotone (fun sl _ => sl.head?)
    (by
      intro sl q w h
      cases sl with
      | nil => exact absurd h (by simp)
      | cons a l =>
        simp only [List.head?] at h
        rw [← Option.some.inj h]
        exact List.mem_cons_self a l)
    ⟨[⟨0, ['c'], ['c'], false, false⟩], -1⟩ (by decide) [['c']]

theorem jsSlice_subset {α : Type} (l : List α) (s e : ℤ) :
    ∀ x ∈ jsSlice l s e, x ∈ l := by
  intro x hx
  simp only [jsSlice] at hx
  exact List.mem_of_mem_drop (List.mem_of_mem_take hx)

theorem handlePartial_eq_of_lastTok
    (search : List ScriptWord → List Char → Option ScriptWord)
    (st : TrackerState) {t1 t2 : List Char} (h1 : t1 ≠ []) (h2 : t2 ≠ [])
    (he : lastSpaceTok t1 = lastSpaceTok t2) :
    handlePartialTranscript search t1 st = handlePartialTranscript search t2 st := by
  unfold handlePartialTranscript
  rw [if_neg h1, if_neg h2, he]

theorem handlePartial_lastIdx
    (search : List ScriptWord → List Char → Option ScriptWord)
    (text : List Char) (st : TrackerState) :
    (handlePartialTranscript search text st).lastMatchedWordIndex
      = st.lastMatchedWordIndex := by
  unfold handlePartialTranscript
  by_cases h1 : text = []
  · rw [if_pos h1]
  · rw [if_neg h1]
    by_cases h2 : lastSpaceTok text = []
    · rw [if_pos h2]
    · rw [if_neg h2]
      by_cases h3 : jsSlice st.scriptWords (st.lastMatchedWordIndex + 1)
          (st.lastMatchedWordIndex + 1 + SEARCH_WINDOW_SIZE) = []
      · rw [if_pos h3]
      · rw [if_neg h3]
        cases h4 : search (jsSlice st.scriptWords (st.lastMatchedWordIndex + 1)
            (st.lastMatchedWordIndex + 1 + SEARCH_WINDOW_SIZE))
            (lastSpaceTok text) with
        | none => simp only [h4]
        | some bm => simp only [h4]

theorem handlePartial_isSpoken
    (search : List ScriptWord → List Char → Option ScriptWord)
    (text : List Char) (st : TrackerState) :
    (handlePartialTranscript search text st).scriptWords.map (fun x => x.isSpoken)
      = st.scriptWords.map (fun x => x.isSpoken) := by
  unfold handlePartialTranscript
  by_cases h1 : text = []
  · rw [if_pos h1]
  · rw [if_neg h1]
    by_cases h2 : lastSpaceTok text = []
    · rw [if_pos h2]
    · rw [if_neg h2]
      by_cases h3 : jsSlice st.scriptWords (st.lastMatchedWordIndex + 1)
          (st.lastMatchedWordIndex + 1 + SEARCH_WINDOW_SIZE) = []
      · rw [if_pos h3]
      · rw [if_neg h3]
        cases h4 : search (jsSlice st.scriptWords (st.lastMatchedWordIndex + 1)
            (st.lastMatchedWordIndex + 1 + SEARCH_WINDOW_SIZE))
            (lastSpaceTok text) with
        | none => simp only [h4]
        | some bm =>
          simp only [h4]
          rw [List.map_map]
          rfl

theorem handlePartial_hit
    (search : List ScriptWord → List Char → Option ScriptWord)
    (st : TrackerState) (text : List Char) (w : ScriptWord)
    (ht : text ≠ []) (htok : lastSpaceTok text ≠ [])
    (hslne : jsSlice st.scriptWords (st.lastMatchedWordIndex + 1)
      (st.lastMatchedWordIndex + 1 + SEARCH_WINDOW_SIZE) ≠ [])
    (hse : search (jsSlice st.scriptWords (st.lastMatchedWordIndex + 1)
        (st.lastMatchedWordIndex + 1 + SEARCH_WINDOW_SIZE))
        (lastSpaceTok text) = some w) :
    (handlePartialTranscript search text st).scriptWords
      = st.scriptWords.map (fun x => { x with isCurrent := x.id == w.id }) := by
  unfold handlePartialTranscript
  rw [if_neg ht, if_neg htok, if_neg hslne]
  simp only [hse]

theorem countP_isCurrent (st : TrackerState) (hwf : TrackerWF st)
    (w : ScriptWord) (hw : w ∈ st.scriptWords) :
    (st.scriptWords.map (fun x => { x with isCurrent := x.id == w.id })).countP
      (fun x => x.isCurrent) = 1 := by
  rw [List.countP_map]
  have hcomp : ((fun x : ScriptWord => x.isCurrent) ∘
        (fun x : ScriptWord => { x with isCurrent := x.id == w.id }))
      = fun a : ScriptWord => a.id == w.id := rfl
  rw [hcomp]
  have hc : st.scriptWords.countP (fun a : ScriptWord => a.id == w.id)
      = (st.scriptWords.map (fun x => x.id)).count w.id := by
    have hm := List.countP_map (fun i : Nat => i == w.id)
      (fun x : ScriptWord => x.id) st.scriptWords
    exact hm.symm
  rw [hc]
  unfold TrackerWF at hwf
  rw [hwf]
  have hlt : w.id < st.scriptWords.length := by
    have : w.id ∈ st.scriptWords.map (fun x => x.id) := List.mem_map_of_mem _ hw
    rw [hwf] at this
    exact List.mem_range.mp this
  exact List.count_eq_one_of_mem (List.nodup_range _) (List.mem_range.mpr hlt)

/-- C7 (amended): the partial handler aligns only the last
space-delimited token of the partial text (the source splits on the
single space character, not on general whitespace) against the window of
script words starting just after `lastMatchedWordIndex`; on a hit (the
window search returns a word `w`, necessarily a member of the window) it
sets `isCurrent = true` exactly at the matched word's id and false for
all others, and it never changes `lastMatchedWordIndex` or any
`isSpoken` flag. -/
theorem C7_partial_frame
    (search : List ScriptWord → List Char → Option ScriptWord)
    (hs : ∀ sl q w, search sl q = some w → w ∈ sl)
    (st : TrackerState) (hwf : TrackerWF st) (text : List Char) :
    (∀ text2, text ≠ [] → text2 ≠ [] → lastSpaceTok text2 = lastSpaceTok text →
        handlePartialTranscript search text2 st
          = handlePartialTranscript search text st) ∧
      (handlePartialTranscript search text st).lastMatchedWordIndex
          = st.lastMatchedWordIndex ∧
      (handlePartialTranscript search text st).scriptWords.map (fun x => x.isSpoken)
          = st.scriptWords.map (fun x => x.isSpoken) ∧
      ∀ w, text ≠ [] → lastSpaceTok text ≠ [] →
        search (jsSlice st.scriptWords (st.lastMatchedWordIndex + 1)
            (st.lastMatchedWordIndex + 1 + SEARCH_WINDOW_SIZE))
            (lastSpaceTok text) = some w →
        (handlePartialTranscript search text st).scriptWords.map
              (fun x => x.isCurrent)
            = st.scriptWords.map (fun x => x.id == w.id) ∧
          (handlePartialTranscript search text st).scriptWords.countP
            (fun x => x.isCurrent) = 1 := by
  refine ⟨?_, handlePartial_lastIdx search text st,
    handlePartial_isSpoken search text st, ?_⟩
  · intro text2 ht h2 he
    exact handlePartial_eq_of_lastTok search st h2 ht he
  · intro w ht htok hse
    have hwmem := hs _ _ _ hse
    have hslne := List.ne_nil_of_mem hwmem
    have hws := handlePartial_hit search st text w ht htok hslne hse
    constructor
    · rw [hws, List.map_map]
      rfl
    · rw [hws]
      exact countP_isCurrent st hwf w
        (jsSlice_subset st.scriptWords _ _ w hwmem)

/-- Witness for C7's amended claim: one-word script, head-of-window
search gated on the query "c", partial text "c". -/
theorem C7_partial_frame_witness :
    (∀ text2, (['c'] : List Char) ≠ [] → text2 ≠ [] →
        lastSpaceTok text2 = lastSpaceTok ['c'] →
        handlePartialTranscript
            (fun sl q => if q = ['c'] then sl.head? else none) text2
            ⟨[⟨0, ['c'], ['c'], false, false⟩], -1⟩
          = handlePartialTranscript
            (fun sl q => if q = ['c'] then sl.head? else none) ['c']
            ⟨[⟨0, ['c'], ['c'], false, false⟩], -1⟩) ∧
      (handlePartialTranscript
          (fun sl q => if q = ['c'] then sl.head? else none) ['c']
          ⟨[⟨0, ['c'], ['c'], false, false⟩], -1⟩).lastMatchedWordIndex
          = (⟨[⟨0, ['c'], ['c'], false, false⟩], -1⟩ :
              TrackerState).lastMatchedWordIndex ∧
      (handlePartialTranscript
          (fun sl q => if q = ['c'] then sl.head? else none) ['c']
          ⟨[⟨0, ['c'], ['c'], false, false⟩], -1⟩).scriptWords.map
            (fun x => x.isSpoken)
          = (⟨[⟨0, ['c'], ['c'], false, false⟩], -1⟩ :
              TrackerState).scriptWords.map (fun x => x.isSpoken) ∧
      ∀ w, (['c'] : List Char) ≠ [] → lastSpaceTok ['c'] ≠ [] →
        (fun sl q => if q = ['c'] then sl.head? else none)
            (jsSlice (⟨[⟨0, ['c'], ['c'], false, false⟩], -1⟩ :
                TrackerState).scriptWords
              ((⟨[⟨0, ['c'], ['c'], false, false⟩], -1⟩ :
                TrackerState).lastMatchedWordIndex + 1)
              ((⟨[⟨0, ['c'], ['c'], false, false⟩], -1⟩ :
                TrackerState).lastMatchedWordIndex + 1 + SEARCH_WINDOW_SIZE))
            (lastSpaceTok ['c']) = some w →
        (handlePartialTranscript
              (fun sl q => if q = ['c'] then sl.head? else none) ['c']
              ⟨[⟨0, ['c'], ['c'], false, false⟩], -1⟩).scriptWords.map
              (fun x => x.isCurrent)
            = (⟨[⟨0, ['c'], ['c'], false, false⟩], -1⟩ :
                TrackerState).scriptWords.map (fun x => x.id == w.id) ∧
          (handlePartialTranscript
              (fun sl q => if q = ['c'] then sl.head? else none) ['c']
              ⟨[⟨0, ['c'], ['c'], false, false⟩], -1⟩).scriptWords.countP
            (fun x => x.isCurrent) = 1 :=
  C7_partial_frame (fun sl q => if q = ['c'] then sl.head? else none)
    (by
      intro sl q w h
      change (if q = ['c'] then sl.head? else none) = some w at h
      by_cases hq : q = ['c']
      · rw [if_pos hq] at h
        cases sl with
        | nil => exact absurd h (by simp)
        | cons a l =>
          simp only [List.head?] at h
          rw [← Option.some.inj h]
          exact List.mem_cons_self a l
      · rw [if_neg hq] at h
        exact absurd h (by simp))
    ⟨[⟨0, ['c'], ['c'], false, false⟩], -1⟩ (by decide) ['c']

/-- Counterexample to C7 as stated: the partial texts "b&#9;c" (with a
tab) and "c" have the same last whitespace-delimited token, namely "c",
yet the handler treats them differently — the source splits on the
single space character only, so for "b&#9;c" it aligns the whole string
"b&#9;c" and misses, while for "c" it aligns "c" and hits. -/
theorem C7_partial_whitespace_cex :
    lastWsTok ['b', '\t', 'c'] = lastWsTok ['c'] ∧
      handlePartialTranscript
          (fun sl q => if q = ['c'] then sl.head? else none)
          ['b', '\t', 'c'] ⟨[⟨0, ['c'], ['c'], false, false⟩], -1⟩ ≠
        handlePartialTranscript
          (fun sl q => if q = ['c'] then sl.head? else none)
          ['c'] ⟨[⟨0, ['c'], ['c'], false, false⟩], -1⟩ :=
  ⟨by decide, by decide⟩

end GAC
